import Mathlib

/-!
Verification of the Othello engine core (board representation, move
geometry, notation codec, evaluator, Zobrist hasher, transposition
cache, alpha-beta search) against its natural-language specification.

Modelling conventions:
* The Rust `i128` bit-packed board is modelled as a `Nat` together with
  the invariant `board < 2^128`; every bit operation of the source is
  reproduced on `Nat` (the source never relies on sign bits: all reads
  mask to 2 bits, and the 128-bit complement used by `set_tile` is
  written out explicitly as xor with `2^128 - 1`).
* Rust `i8` / `u32` coordinates and depths are modelled as `Int` / `Nat`
  (no arithmetic in the source can overflow these types on the inputs it
  is run on: coordinates stay within [-8, 15]).
* Rust `f32` heuristics are modelled as `ℚ`.  Every score the engine
  manipulates is produced by the heuristic, `f32::MIN`, `f32::MAX`, or
  `0`, and combined with `max` / `min` only, so the claims settled here
  are about the search / ranking structure, which is independent of the
  rounding of the scalar type.  (`f32` division by zero yields NaN where
  `ℚ` yields 0; the one place this matters, the mobility heuristic, is
  discussed at its definition.)
* Zobrist keys are `i64` magnitudes in the source (`ZHasher::new` stores
  absolute values), hence always non-negative and below `2^63`; they are
  modelled as `Nat`, on which `%` and `^^^` agree with the Rust
  operations on those values.
* The callback-style enumerators (`find_potential_moves` taking an
  `on_move` closure) are modelled as the list of tiles in callback
  order, which is how all three call sites in the source consume them.
* `ParseError` lives in `errors.rs`, which only carries a message
  string; `ParseResult<T>` is modelled as `Except String T`.
-/

namespace Othello

/-- Cell constants from board.rs. -/
def EMPTY : Nat := 0

/-- board.rs: `pub const WHITE: u8 = 1`. -/
def WHITE : Nat := 1

/-- board.rs: `pub const BLACK: u8 = 2`. -/
def BLACK : Nat := 2

/-- board.rs: the 8 compass directions. -/
def DIRECTIONS : List (Int × Int) :=
  [(0, 1), (0, -1), (1, 0), (-1, 0), (-1, -1), (-1, 1), (1, -1), (1, 1)]

/-- tile.rs: a coordinate pair, `i8` fields modelled as `Int`. -/
structure Tile where
  row : Int
  col : Int
deriving DecidableEq, Repr

/-- tile.rs: `Tile::new`. -/
def Tile.new (row col : Int) : Tile := ⟨row, col⟩

/-- tile.rs: `Tile::from_index`. -/
def Tile.from_index (index : Nat) : Tile := ⟨(index / 8 : Nat), (index % 8 : Nat)⟩

/-- tile.rs: `Tile::in_bounds`. -/
def Tile.in_bounds (t : Tile) : Bool :=
  0 ≤ t.row && 0 ≤ t.col && t.row < 8 && t.col < 8

/-- tile.rs: the static `TILES` array of the 64 tiles in index order. -/
def TILES : List Tile := (List.range 64).map Tile.from_index

/-- board.rs: the packed board (an `i128`, modelled as a `Nat < 2^128`)
plus the side-to-move flag. -/
structure OthelloBoard where
  board : Nat
  black_move : Bool
deriving DecidableEq, Repr

/-- The shift amount `(row * 8 + col) * 2` used by get_tile/set_tile. -/
def tileShift (tile : Tile) : Nat := ((tile.row * 8 + tile.col) * 2).toNat

/-- All 128 bits set: the value of `!0i128` viewed as a bit mask, used to
express the two bitwise complements in `set_tile`. -/
def MASK128 : Nat := 2 ^ 128 - 1

/-- board.rs: `set_tile`.  The source clears the cell's two bits with
`!(1 << p) & !(1 << (p + 1))` and ors in the color; the 128-bit
complement of the two one-hot masks is written as xor with `MASK128`. -/
def OthelloBoard.set_tile (b : OthelloBoard) (tile : Tile) (color : Nat) : OthelloBoard :=
  let p := tileShift tile
  let clear_mask := MASK128 ^^^ ((1 <<< p) ||| (1 <<< (p + 1)))
  { b with board := (b.board &&& clear_mask) ||| (color <<< p) }

/-- board.rs: `get_tile`. -/
def OthelloBoard.get_tile (b : OthelloBoard) (tile : Tile) : Nat :=
  let mask := (1 <<< 2) - 1
  let p := tileShift tile
  mask &&& (b.board >>> p)

/-- board.rs: `OthelloBoard::new`, the initial position. -/
def OthelloBoard.new : OthelloBoard :=
  let b : OthelloBoard := { board := 0, black_move := true }
  let b := b.set_tile (Tile.new 3 3) WHITE
  let b := b.set_tile (Tile.new 3 4) BLACK
  let b := b.set_tile (Tile.new 4 3) BLACK
  let b := b.set_tile (Tile.new 4 4) WHITE
  b

/-- The `while` walk of `find_potential_moves`: starting at `t`, step in
direction `(dr, dc)` while the cell is in bounds and holds
`opposite_color`, returning the stopping tile and the step count.  The
walk takes at most 8 steps before leaving the board, so any `fuel ≥ 8`
gives the loop's exact behaviour; call sites pass 16. -/
def walkWhile (b : OthelloBoard) (opposite : Nat) (t : Tile) (dr dc : Int) :
    Nat → Tile × Nat
  | 0 => (t, 0)
  | fuel + 1 =>
    if t.in_bounds then
      if b.get_tile t ≠ opposite then (t, 0)
      else
        let r := walkWhile b opposite (Tile.new (t.row + dr) (t.col + dc)) dr dc fuel
        (r.1, r.2 + 1)
    else (t, 0)

/-- board.rs: `find_potential_moves`, as the list of tiles passed to the
`on_move` callback, in callback order (duplicates preserved). -/
def OthelloBoard.find_potential_moves (b : OthelloBoard) (color : Nat) : List Tile :=
  let opposite_color := if color = BLACK then WHITE else BLACK
  TILES.foldl (fun acc disc =>
    if b.get_tile disc ≠ color then acc
    else
      DIRECTIONS.foldl (fun acc2 direction =>
        let r := walkWhile b opposite_color
          (Tile.new (disc.row + direction.1) (disc.col + direction.2))
          direction.1 direction.2 16
        if r.2 > 0 && r.1.in_bounds && decide (b.get_tile r.1 = EMPTY) then
          acc2 ++ [r.1]
        else acc2) acc) []

/-- board.rs: `find_current_moves` / `find_current_moves_as_vec`. -/
def OthelloBoard.find_current_moves_as_vec (b : OthelloBoard) : List Tile :=
  b.find_potential_moves (if b.black_move then BLACK else WHITE)

/-- board.rs: `count_potential_moves`. -/
def OthelloBoard.count_potential_moves (b : OthelloBoard) (color : Nat) : Nat :=
  (b.find_potential_moves color).length

/-- The first `while` walk of `make_move`: detect whether the ray from
`t` in direction `(dr, dc)` reaches a cell of `current` color before
hitting an empty cell or leaving the board. -/
def findFlank (b : OthelloBoard) (current : Nat) (t : Tile) (dr dc : Int) :
    Nat → Bool
  | 0 => false
  | fuel + 1 =>
    if t.in_bounds then
      if b.get_tile t = current then true
      else if b.get_tile t = EMPTY then false
      else findFlank b current (Tile.new (t.row + dr) (t.col + dc)) dr dc fuel
    else false

/-- The second `while` walk of `make_move`: flip cells of
`opposite_color` to `current` along the ray until a non-opposite cell or
the edge is reached. -/
def flipRun (b : OthelloBoard) (current opposite : Nat) (t : Tile) (dr dc : Int) :
    Nat → OthelloBoard
  | 0 => b
  | fuel + 1 =>
    if t.in_bounds then
      if b.get_tile t ≠ opposite then b
      else flipRun (b.set_tile t current) current opposite
        (Tile.new (t.row + dr) (t.col + dc)) dr dc fuel
    else b

/-- board.rs: `make_move`.  Copies the board, flips the turn, places the
mover's disc, then processes the 8 directions in order (the two walks of
each direction only read cells on that direction's ray, which the other
directions never touch). -/
def OthelloBoard.make_move (b : OthelloBoard) (mov : Tile) : OthelloBoard :=
  let opposite_color := if b.black_move then WHITE else BLACK
  let current_color := if b.black_move then BLACK else WHITE
  let b1 : OthelloBoard := { b with black_move := !b.black_move }
  let b1 := b1.set_tile mov current_color
  DIRECTIONS.foldl (fun bd direction =>
    let initial_tile := Tile.new (mov.row + direction.1) (mov.col + direction.2)
    if findFlank bd current_color initial_tile direction.1 direction.2 16 then
      flipRun bd current_color opposite_color initial_tile direction.1 direction.2 16
    else bd) b1

/-- board.rs: `get_symbol`. -/
def OthelloBoard.get_symbol (b : OthelloBoard) (tile : Tile) : Char :=
  match b.get_tile tile with
  | 1 => 'B'
  | 2 => 'W'
  | _ => 'E'

/-- board.rs: `set_symbol` (`ParseResult` is `Except` over the message). -/
def OthelloBoard.set_symbol (b : OthelloBoard) (tile : Tile) (sym : Char) :
    Except String OthelloBoard :=
  match sym with
  | 'E' => Except.ok (b.set_tile tile 0)
  | 'B' => Except.ok (b.set_tile tile 1)
  | 'W' => Except.ok (b.set_tile tile 2)
  | _ => Except.error "Tile symbol must be E, B or W"

/-- board.rs: `set_turn`. -/
def OthelloBoard.set_turn (b : OthelloBoard) (sym : Char) :
    Except String OthelloBoard :=
  match sym with
  | 'B' => Except.ok { b with black_move := true }
  | 'W' => Except.ok { b with black_move := false }
  | _ => Except.error "Turn must be B or W"

/-- Rust `char::to_digit(10)`. -/
def charToDigit10 (c : Char) : Option Nat :=
  if c.isDigit then some (c.toNat - '0'.toNat) else none

/-- The body of `from_notation`'s `for` loop, processing the remaining
characters from loop state `(board, row, col, count)`.  Reaching
`row > 7` makes the next character the turn marker and stops (`break`
followed by `Ok(board)`); running out of characters returns the board
accumulated so far. -/
def fromNotationAux (b : OthelloBoard) (row col : Int) (count : Int) :
    List Char → Except String OthelloBoard
  | [] => Except.ok b
  | c :: cs =>
    if row > 7 then
      OthelloBoard.set_turn b c
    else if c = '/' then
      fromNotationAux b (row + 1) 0 count cs
    else
      match charToDigit10 c with
      | some digit => fromNotationAux b row col (digit : Int) cs
      | none =>
        if count + col > 8 then
          Except.error "Cannot have more than 8 cols per row"
        else
          match writeRun b row col count.toNat c with
          | Except.ok r => fromNotationAux r.1 row r.2 1 cs
          | Except.error e => Except.error e
where
  /-- The inner `for _ in 0..count` loop: write `count` copies of symbol
  `c` starting at `(row, col)`, returning the board and the new column. -/
  writeRun (b : OthelloBoard) (row col : Int) :
      Nat → Char → Except String (OthelloBoard × Int)
    | 0, _ => Except.ok (b, col)
    | n + 1, c =>
      match OthelloBoard.set_symbol b (Tile.new row col) c with
      | Except.ok b' => writeRun b' row (col + 1) n c
      | Except.error e => Except.error e

/-- board.rs: `from_notation`.  Starts from `OthelloBoard::new()` with
`row = 0`, `col = 0`, `count = 1`. -/
def OthelloBoard.from_notation (s : List Char) : Except String OthelloBoard :=
  fromNotationAux OthelloBoard.new 0 0 1 s

/-- Rust `count.to_string()` for the run counts (always ≤ 8 here). -/
def natChars (n : Nat) : List Char := Nat.toDigits 10 n

/-- The flush step of `to_notation`: push the count (when above 1) and
the symbol (when the count is positive). -/
def flushRun (acc : List Char) (count : Nat) (sym : Char) : List Char :=
  let acc := if count > 1 then acc ++ natChars count else acc
  if count > 0 then acc ++ [sym] else acc

/-- The body of `to_notation`'s `for tile in TILES` loop: compare the
tile's symbol against the pending run, flush on a change, and flush
unconditionally (plus `'/'`) at the end of each row.  The loop state is
(accumulated output, count, sym). -/
def encStep (b : OthelloBoard) (st : List Char × Nat × Char) (tile : Tile) :
    List Char × Nat × Char :=
  let acc := st.1
  let count := st.2.1
  let sym := st.2.2
  let new_sym := b.get_symbol tile
  let st2 := if new_sym ≠ sym then (flushRun acc count sym, 1, new_sym)
    else (acc, count + 1, sym)
  if tile.col = 7 then (flushRun st2.1 st2.2.1 st2.2.2 ++ ['/'], 0, new_sym)
  else st2

/-- board.rs: `to_notation`, as the character list of the produced
string. -/
def OthelloBoard.to_notation (b : OthelloBoard) : List Char :=
  let start := b.get_symbol (Tile.from_index 0)
  let st := TILES.foldl (encStep b) ([], 0, start)
  st.1 ++ [if b.black_move then 'B' else 'W']

/-- tile.rs: `RankedTile` (an `f32` score, modelled as `ℚ`). -/
structure RankedTile where
  tile : Tile
  heuristic : ℚ
deriving DecidableEq, Repr

/-- tile.rs: `RankedTile::new`. -/
def RankedTile.new (tile : Tile) (heuristic : ℚ) : RankedTile := ⟨tile, heuristic⟩

/-- tile.rs: `RankedTile::from_option`. -/
def RankedTile.from_option (tile : Option Tile) (heuristic : ℚ) : Option RankedTile :=
  match tile with
  | some t => some (RankedTile.new t heuristic)
  | none => none

/-- The exact rational division used by the heuristic definitions.
`f32` division is modelled as `ℚ` division; `Rat.inv` (hence `/` on
`ℚ`) is irreducible, which would make the heuristics impossible to
evaluate inside the kernel, so division is implemented through
`Rat.divInt`; `qdiv_eq` below proves it equal to `/`. -/
def qdiv (a b : ℚ) : ℚ := Rat.divInt (a.num * (b.den : Int)) ((a.den : Int) * b.num)

/-- Executable `ℚ` addition (`Rat.add` is irreducible; `qadd_eq` below
proves this equals `+`). -/
def qadd (a b : ℚ) : ℚ := Rat.divInt (a.num * b.den + b.num * a.den) (a.den * b.den)

/-- Executable `ℚ` subtraction (equals `-` by `qsub_eq`). -/
def qsub (a b : ℚ) : ℚ := Rat.divInt (a.num * b.den - b.num * a.den) (a.den * b.den)

/-- Executable `ℚ` multiplication (equals `*` by `qmul_eq`). -/
def qmul (a b : ℚ) : ℚ := Rat.divInt (a.num * b.num) (a.den * b.den)

/-! ### eval.rs -/

/-- eval.rs: the 4 corner cells. -/
def CORNERS : List (Int × Int) := [(0, 0), (0, 7), (7, 0), (7, 7)]

/-- eval.rs: the 12 X- and C-squares. -/
def XC_SQUARES : List (Int × Int) :=
  [(1, 1), (1, 6), (6, 1), (6, 6), (0, 1), (0, 6),
   (7, 1), (7, 6), (1, 0), (1, 7), (6, 0), (6, 7)]

/-- eval.rs: `find_parity_heuristic`.  The accumulator pair is
(white_score, black_score); the source has no zero-denominator guard
here (`f32` would give NaN on an all-empty board, `ℚ` gives 0; every
board the engine evaluates has the 4 initial discs). -/
def find_parity_heuristic (b : OthelloBoard) : ℚ :=
  let p := TILES.foldl (fun (p : ℚ × ℚ) tile =>
    let color := b.get_tile tile
    let p := if color = WHITE then (qadd p.1 1, p.2) else p
    if color = BLACK then (p.1, qadd p.2 1) else p) (0, 0)
  qdiv (qsub p.2 p.1) (qadd p.2 p.1)

/-- eval.rs: `find_corner_heuristic`. -/
def find_corner_heuristic (b : OthelloBoard) : ℚ :=
  let p := CORNERS.foldl (fun (p : ℚ × ℚ) corner =>
    let color := b.get_tile (Tile.new corner.1 corner.2)
    let p := if color = WHITE then (qadd p.1 1, p.2) else p
    if color = BLACK then (p.1, qadd p.2 1) else p) (0, 0)
  if qadd p.2 p.1 ≠ 0 then qdiv (qsub p.2 p.1) (qadd p.2 p.1) else 0

/-- eval.rs: `find_xc_square_heuristic`. -/
def find_xc_square_heuristic (b : OthelloBoard) : ℚ :=
  let p := XC_SQUARES.foldl (fun (p : ℚ × ℚ) square =>
    let color := b.get_tile (Tile.new square.1 square.2)
    let p := if color = WHITE then (qadd p.1 1, p.2) else p
    if color = BLACK then (p.1, qadd p.2 1) else p) (0, 0)
  if qadd p.1 p.2 ≠ 0 then qdiv (qsub p.1 p.2) (qadd p.2 p.1) else 0

/-- eval.rs: `find_mobility_heuristic`, faithfully including its
inverted guard: the differential quotient is only computed when both
sides have zero moves (where the source's `f32` arithmetic produces
`0/0 = NaN`; `ℚ` gives `0`), and the branch taken whenever any move
exists returns the literal `0`. -/
def find_mobility_heuristic (b : OthelloBoard) : ℚ :=
  let white_moves : ℚ := (b.count_potential_moves WHITE : ℚ)
  let black_moves : ℚ := (b.count_potential_moves BLACK : ℚ)
  if qadd white_moves black_moves = 0 then
    qdiv (qsub black_moves white_moves) (qadd black_moves white_moves)
  else 0

/-- eval.rs: `find_stability_heuristic` (documented no-op). -/
def find_stability_heuristic (_ : OthelloBoard) : ℚ := 0

/-- eval.rs: `find_heuristic`, the weighted sum. -/
def find_heuristic (b : OthelloBoard) : ℚ :=
  qadd (qadd (qadd (qadd (qmul 50 (find_parity_heuristic b))
    (qmul 100 (find_corner_heuristic b)))
    (qmul 100 (find_mobility_heuristic b)))
    (qmul 50 (find_xc_square_heuristic b)))
    (qmul 100 (find_stability_heuristic b))

/-! ### hasher.rs -/

/-- hasher.rs: the Zobrist table, one triple of random `i64` magnitudes
per cell.  `ZHasher::new` stores `|n|` for uniformly drawn `n`, so every
entry is a non-negative value below `2^63`; the table is modelled as an
arbitrary function with that range. -/
structure ZHasher where
  table : Nat → Nat → Nat

/-- hasher.rs: `ZHasher::hash`: xor, over the 64 cells, of the table
entry for (cell index, cell content). -/
def ZHasher.hash (h : ZHasher) (b : OthelloBoard) : Nat :=
  (List.range 64).foldl (fun hash i =>
    let t := Tile.from_index i
    hash ^^^ h.table i (b.get_tile t)) 0

/-! ### cache.rs -/

/-- cache.rs: `CACHE_SIZE = 2^12 + 1`. -/
def CACHE_SIZE : Nat := 2 ^ 12 + 1

/-- cache.rs: `CacheNode` (key: non-negative `i64`, modelled as `Nat`;
heuristic: `f32`, modelled as `ℚ`; depth: `u32`). -/
structure CacheNode where
  key : Nat
  heuristic : ℚ
  depth : Nat
deriving DecidableEq, Repr

/-- cache.rs: `CacheNode::new`. -/
def CacheNode.new (key : Nat) (heuristic : ℚ) (depth : Nat) : CacheNode :=
  ⟨key, heuristic, depth⟩

/-- cache.rs: a cache line `[Option<CacheNode>; 2]`; `.1` is slot 0
("replace by depth"), `.2` is slot 1 ("replace always"). -/
abbrev CacheLine := Option CacheNode × Option CacheNode

/-- cache.rs: the fixed-size table (an array of `CACHE_SIZE` lines,
modelled as a function from bucket index) with hit/miss counters. -/
structure TranspositionTable where
  cache : Nat → CacheLine
  hits : Nat
  misses : Nat

/-- cache.rs: `TranspositionTable::new`. -/
def TranspositionTable.new : TranspositionTable :=
  ⟨fun _ => (none, none), 0, 0⟩

/-- The slot-replacement policy of `put` on one cache line. -/
def putLine (line : CacheLine) (node : CacheNode) : CacheLine :=
  match line.1 with
  | some first_node =>
    if node.depth > first_node.depth then (some node, some first_node)
    else (line.1, some node)
  | none => (some node, line.2)

/-- cache.rs: `put`: select the bucket by `key % CACHE_SIZE` and apply
the two-slot replacement policy. -/
def TranspositionTable.put (tt : TranspositionTable) (node : CacheNode) :
    TranspositionTable :=
  let h := node.key % CACHE_SIZE
  { tt with cache := fun i => if i = h then putLine (tt.cache h) node else tt.cache i }

/-- The scan of `get` over one cache line: first entry whose key
matches. -/
def getLine (line : CacheLine) (key : Nat) : Option CacheNode :=
  match line.1 with
  | some node =>
    if node.key = key then some node
    else match line.2 with
      | some node2 => if node2.key = key then some node2 else none
      | none => none
  | none =>
    match line.2 with
    | some node2 => if node2.key = key then some node2 else none
    | none => none

/-- cache.rs: `get`: scan the bucket's two slots for an exact key match,
recording a hit or a miss. -/
def TranspositionTable.get (tt : TranspositionTable) (key : Nat) :
    Option CacheNode × TranspositionTable :=
  match getLine (tt.cache (key % CACHE_SIZE)) key with
  | some node => (some node, { tt with hits := tt.hits + 1 })
  | none => (none, { tt with misses := tt.misses + 1 })

/-- cache.rs: `reset_counts`. -/
def TranspositionTable.reset_counts (tt : TranspositionTable) : TranspositionTable :=
  { tt with hits := 0, misses := 0 }

/-! ### agent.rs -/

/-- agent.rs: `AgentConfig`. -/
structure AgentConfig where
  max_search_depth : Nat

/-- The exact value of `f32::MIN`, `-(2 - 2^-23) * 2^127 = -(2^128 - 2^104)`
(spelled through `Rat.divInt` so it evaluates in the kernel). -/
def F32_MIN : ℚ := Rat.divInt (-340282346638528859811704183484516925440) 1

/-- The exact value of `f32::MAX`, `2^128 - 2^104`. -/
def F32_MAX : ℚ := Rat.divInt 340282346638528859811704183484516925440 1

/-- The maximizer's fold over the children with the early `break`:
`for child in children { alpha = alpha.max(evaluate ..); if alpha >= beta break }`. -/
def abLoopMax (f : OthelloBoard → ℚ → ℚ → TranspositionTable → ℚ × TranspositionTable) :
    List OthelloBoard → ℚ → ℚ → TranspositionTable → ℚ × TranspositionTable
  | [], alpha, _, tt => (alpha, tt)
  | child :: rest, alpha, beta, tt =>
    let r := f child alpha beta tt
    let alpha := max alpha r.1
    if alpha ≥ beta then (alpha, r.2)
    else abLoopMax f rest alpha beta r.2

/-- The minimizer's mirror loop:
`for child in children { beta = beta.min(evaluate ..); if beta <= alpha break }`. -/
def abLoopMin (f : OthelloBoard → ℚ → ℚ → TranspositionTable → ℚ × TranspositionTable) :
    List OthelloBoard → ℚ → ℚ → TranspositionTable → ℚ × TranspositionTable
  | [], _, beta, tt => (beta, tt)
  | child :: rest, alpha, beta, tt =>
    let r := f child alpha beta tt
    let beta := min beta r.1
    if beta ≤ alpha then (beta, r.2)
    else abLoopMin f rest alpha beta r.2

/-- agent.rs: `evaluate`, parameterized by whether the transposition
cache is consulted (`use_cache = true` is the source; `use_cache =
false` is the "every `get` returns a miss" variant of the cache
soundness property — `put` still stores, exactly as it would on a
miss).  The recursion is on `depth`; the `maximizer` branch folds the
children through `alpha`/`max` with an early break once `alpha ≥ beta`
(`abLoopMax`), the minimizer mirrors it, and both store the resulting
value at the position's key and the current depth before returning. -/
def evaluateWith (use_cache : Bool) (hasher : ZHasher) :
    Nat → OthelloBoard → Bool → ℚ → ℚ → TranspositionTable →
    ℚ × TranspositionTable
  | 0, board, _, _, _, tt => (find_heuristic board, tt)
  | depth + 1, board, maximizer, alpha, beta, tt =>
    let children := board.find_current_moves_as_vec.map board.make_move
    if children.isEmpty then (find_heuristic board, tt)
    else
      let hash_key := hasher.hash board
      let probe := if use_cache then tt.get hash_key else (none, tt)
      let cont := fun (tt : TranspositionTable) =>
        if maximizer then
          let r := abLoopMax (fun c a bt t => evaluateWith use_cache hasher depth c false a bt t)
            children alpha beta tt
          (r.1, r.2.put (CacheNode.new hash_key r.1 (depth + 1)))
        else
          let r := abLoopMin (fun c a bt t => evaluateWith use_cache hasher depth c true a bt t)
            children alpha beta tt
          (r.1, r.2.put (CacheNode.new hash_key r.1 (depth + 1)))
      match probe.1 with
      | some node =>
        if node.depth ≥ depth + 1 then (node.heuristic, probe.2)
        else cont probe.2
      | none => cont probe.2

/-- agent.rs: `evaluate_base`: iterative deepening
`for depth_limit in 1..max_search_depth - 1`, keeping the last pass's
score (`heuristic` starts at `0f32`). -/
def evaluate_base (use_cache : Bool) (hasher : ZHasher) (config : AgentConfig)
    (board : OthelloBoard) (tt : TranspositionTable) : ℚ × TranspositionTable :=
  (List.range' 1 (config.max_search_depth - 1 - 1)).foldl
    (fun (st : ℚ × TranspositionTable) depth_limit =>
      evaluateWith use_cache hasher depth_limit board board.black_move
        F32_MIN F32_MAX st.2)
    (0, tt)

/-- agent.rs: `find_best_move` (the run-statistics recording, which only
reads the wall clock and the counters, is not modelled).  Returns the
chosen move with its score, and the final cache state. -/
def find_best_move (use_cache : Bool) (hasher : ZHasher) (config : AgentConfig)
    (board : OthelloBoard) (tt : TranspositionTable) :
    Option RankedTile × TranspositionTable :=
  let tt := tt.reset_counts
  let st := board.find_current_moves_as_vec.foldl
    (fun (st : Option Tile × ℚ × TranspositionTable) mov =>
      let (best_move, best_heuristic, tt) := st
      let child := board.make_move mov
      let r := evaluate_base use_cache hasher config child tt
      if board.black_move then
        if r.1 > best_heuristic then (some mov, r.1, r.2)
        else (best_move, best_heuristic, r.2)
      else
        if r.1 < best_heuristic then (some mov, r.1, r.2)
        else (best_move, best_heuristic, r.2))
    (none, if board.black_move then F32_MIN else F32_MAX, tt)
  (RankedTile.from_option st.1 st.2.1, st.2.2)

/-- agent.rs: `find_ranked_moves`.  Rust's stable `sort_by` (with
`f32::total_cmp`, which on the NaN-free scores produced here is the
plain order) is modelled as the stable `List.insertionSort`: ascending
by score when black is to move, descending otherwise. -/
def find_ranked_moves (use_cache : Bool) (hasher : ZHasher) (config : AgentConfig)
    (board : OthelloBoard) (tt : TranspositionTable) :
    List RankedTile × TranspositionTable :=
  let tt := tt.reset_counts
  let st := board.find_current_moves_as_vec.foldl
    (fun (st : List RankedTile × TranspositionTable) mov =>
      let child := board.make_move mov
      let r := evaluate_base use_cache hasher config child st.2
      (st.1 ++ [RankedTile.new mov r.1], r.2))
    ([], tt)
  let sorted :=
    if board.black_move then
      List.insertionSort (fun a b : RankedTile => a.heuristic ≤ b.heuristic) st.1
    else
      List.insertionSort (fun a b : RankedTile => b.heuristic ≤ a.heuristic) st.1
  (sorted, st.2)

instance : IsTotal RankedTile (fun a b => a.heuristic ≤ b.heuristic) :=
  ⟨fun a b => le_total a.heuristic b.heuristic⟩

instance : IsTrans RankedTile (fun a b => a.heuristic ≤ b.heuristic) :=
  ⟨fun _ _ _ h1 h2 => le_trans h1 h2⟩

instance : IsTotal RankedTile (fun a b => b.heuristic ≤ a.heuristic) :=
  ⟨fun a b => le_total b.heuristic a.heuristic⟩

instance : IsTrans RankedTile (fun a b => b.heuristic ≤ a.heuristic) :=
  ⟨fun _ _ _ h1 h2 => le_trans h2 h1⟩

/-! ### Reference model for the alpha-beta equivalence claim -/

/-- The unpruned full minimax of the specification's alpha-beta
equivalence property: same children, same recursion depth, static
heuristic at depth 0 and at positions with no legal children, a plain
max-fold (seeded like the source's running `alpha`/`beta` with
`f32::MIN` / `f32::MAX`) and no window, no pruning, no cache. -/
def minimax : Nat → OthelloBoard → Bool → ℚ
  | 0, board, _ => find_heuristic board
  | depth + 1, board, maximizer =>
    let children := board.find_current_moves_as_vec.map board.make_move
    if children.isEmpty then find_heuristic board
    else if maximizer then
      children.foldl (fun a c => max a (minimax depth c false)) F32_MIN
    else
      children.foldl (fun a c => min a (minimax depth c true)) F32_MAX

/-! ### Notions used to state the claims -/

/-- A well-formed packed board: the `i128` payload fits in 128 bits and
no cell holds the unused fourth 2-bit pattern.  Every position reachable
by play satisfies this (cells are only ever written with 0, 1 or 2). -/
def validBoard (b : OthelloBoard) : Prop :=
  b.board < 2 ^ 128 ∧ ∀ i ∈ List.range 64, b.get_tile (Tile.from_index i) ≠ 3

instance (b : OthelloBoard) : Decidable (validBoard b) := by
  unfold validBoard; infer_instance

/-- The `k`-th tile along the ray from `mov` in direction `d`. -/
def rayTile (mov : Tile) (d : Int × Int) (k : Nat) : Tile :=
  ⟨mov.row + k * d.1, mov.col + k * d.2⟩

/-- The length of the maximal contiguous run of `opposite`-colored
in-bounds cells along the ray from `mov` in direction `d` (the count of
the source's walk). -/
def runLen (b : OthelloBoard) (opposite : Nat) (mov : Tile) (d : Int × Int) : Nat :=
  (walkWhile b opposite (rayTile mov d 1) d.1 d.2 16).2

/-- Whether the ray from `mov` in direction `d` carries a flank for
`current`: the maximal run of `opposite` cells is non-empty or not, and
the cell just past it is in bounds and holds `current`. -/
def hasFlank (b : OthelloBoard) (current opposite : Nat) (mov : Tile) (d : Int × Int) : Bool :=
  let r := walkWhile b opposite (rayTile mov d 1) d.1 d.2 16
  r.1.in_bounds && decide (b.get_tile r.1 = current)

/-- The tiles `make_move` must recolor: those lying on some direction's
flanked ray, strictly between the move and the flank cell. -/
def flippedTile (b : OthelloBoard) (mov : Tile) (t : Tile) : Bool :=
  let current := if b.black_move then BLACK else WHITE
  let opposite := if b.black_move then WHITE else BLACK
  DIRECTIONS.any fun d =>
    hasFlank b current opposite mov d &&
    (List.range' 1 (runLen b opposite mov d)).any fun k => decide (t = rayTile mov d k)

/-- `flippedTile` restricted to a sub-list of directions (used to state
the invariant of `make_move`'s direction fold). -/
def flippedOn (ds : List (Int × Int)) (b : OthelloBoard) (mov : Tile) (t : Tile) : Bool :=
  let current := if b.black_move then BLACK else WHITE
  let opposite := if b.black_move then WHITE else BLACK
  ds.any fun d =>
    hasFlank b current opposite mov d &&
    (List.range' 1 (runLen b opposite mov d)).any fun k => decide (t = rayTile mov d k)

/-- Positions producible by legal play from the initial position. -/
inductive Reachable : OthelloBoard → Prop
  | init : Reachable OthelloBoard.new
  | step : ∀ b mov, Reachable b → mov ∈ b.find_current_moves_as_vec →
      Reachable (b.make_move mov)

/-- The cell value `set_symbol` writes for each recognized symbol
(`from_notation` applies it only to the three symbols `get_symbol`
produces, so the default branch is never reached on encoder output). -/
def symVal (c : Char) : Nat :=
  match c with
  | 'B' => 1
  | 'W' => 2
  | _ => 0

/-- The three cell symbols the notation uses. -/
def validSym (c : Char) : Prop := c = 'E' ∨ c = 'B' ∨ c = 'W'

/-- Write a list of symbols into consecutive columns of one row (the
accumulated effect of `from_notation`'s `set_symbol` calls). -/
def writeSyms (b : OthelloBoard) (row col : Int) : List Char → OthelloBoard
  | [] => b
  | c :: cs => writeSyms (b.set_tile (Tile.new row col) (symVal c)) row (col + 1) cs

/-- The run-length encoding of one row of symbols whose pending run is
`(count, sym)`: the reference form of what `to_notation`'s fold emits
for the row (the trailing flush included). -/
def encRun (sym : Char) (count : Nat) : List Char → List Char
  | [] => flushRun [] count sym
  | c :: cs =>
    if c ≠ sym then flushRun [] count sym ++ encRun c 1 cs
    else encRun sym (count + 1) cs

/-- Row-by-row cell writes: the accumulated effect of parsing each
encoded row in turn. -/
def writeRows (b0 : OthelloBoard) (rows : List (Int × List Char)) : OthelloBoard :=
  rows.foldl (fun acc p => writeSyms acc p.1 0 p.2) b0

/-- The cell value a sequence of row writes leaves at tile `t`, starting
from default value `v0`: the last row carrying `t.row` whose symbol list
covers `t.col` wins. -/
def cellOf (rows : List (Int × List Char)) (v0 : Nat) (t : Tile) : Nat :=
  rows.foldl (fun v p =>
    if t.row = p.1 then
      match p.2.get? t.col.toNat with
      | some c => symVal c
      | none => v
    else v) v0

/-- The row-symbol lists `from_notation` writes back when fed the
encoder's output for board `b`. -/
def notationRows (b : OthelloBoard) : List (Int × List Char) :=
  [((0 : Int), List.replicate 1 (b.get_symbol (Tile.new 0 0)) ++
      ([Tile.new 0 1, Tile.new 0 2, Tile.new 0 3, Tile.new 0 4, Tile.new 0 5,
        Tile.new 0 6].map b.get_symbol ++ [b.get_symbol (Tile.new 0 7)])),
   ((1 : Int), List.replicate 1 (b.get_symbol (Tile.new 1 0)) ++
      ([Tile.new 1 1, Tile.new 1 2, Tile.new 1 3, Tile.new 1 4, Tile.new 1 5,
        Tile.new 1 6].map b.get_symbol ++ [b.get_symbol (Tile.new 1 7)])),
   ((2 : Int), List.replicate 1 (b.get_symbol (Tile.new 2 0)) ++
      ([Tile.new 2 1, Tile.new 2 2, Tile.new 2 3, Tile.new 2 4, Tile.new 2 5,
        Tile.new 2 6].map b.get_symbol ++ [b.get_symbol (Tile.new 2 7)])),
   ((3 : Int), List.replicate 1 (b.get_symbol (Tile.new 3 0)) ++
      ([Tile.new 3 1, Tile.new 3 2, Tile.new 3 3, Tile.new 3 4, Tile.new 3 5,
        Tile.new 3 6].map b.get_symbol ++ [b.get_symbol (Tile.new 3 7)])),
   ((4 : Int), List.replicate 1 (b.get_symbol (Tile.new 4 0)) ++
      ([Tile.new 4 1, Tile.new 4 2, Tile.new 4 3, Tile.new 4 4, Tile.new 4 5,
        Tile.new 4 6].map b.get_symbol ++ [b.get_symbol (Tile.new 4 7)])),
   ((5 : Int), List.replicate 1 (b.get_symbol (Tile.new 5 0)) ++
      ([Tile.new 5 1, Tile.new 5 2, Tile.new 5 3, Tile.new 5 4, Tile.new 5 5,
        Tile.new 5 6].map b.get_symbol ++ [b.get_symbol (Tile.new 5 7)])),
   ((6 : Int), List.replicate 1 (b.get_symbol (Tile.new 6 0)) ++
      ([Tile.new 6 1, Tile.new 6 2, Tile.new 6 3, Tile.new 6 4, Tile.new 6 5,
        Tile.new 6 6].map b.get_symbol ++ [b.get_symbol (Tile.new 6 7)])),
   ((7 : Int), List.replicate 1 (b.get_symbol (Tile.new 7 0)) ++
      ([Tile.new 7 1, Tile.new 7 2, Tile.new 7 3, Tile.new 7 4, Tile.new 7 5,
        Tile.new 7 6].map b.get_symbol ++ [b.get_symbol (Tile.new 7 7)]))]

/-! ## Theorems -/

/-- `qdiv` is the field division of `ℚ`. -/
theorem qdiv_eq (a b : ℚ) : qdiv a b = a / b := by
  unfold qdiv
  rw [Rat.divInt_eq_div]
  rcases eq_or_ne b.num 0 with h | h
  · have hb : b = 0 := by rwa [Rat.num_eq_zero] at h
    simp [hb]
  · have ha' : (a.den : ℚ) ≠ 0 := by exact_mod_cast a.den_nz
    have hb' : (b.den : ℚ) ≠ 0 := by exact_mod_cast b.den_nz
    have hbq : b ≠ 0 := fun hh => h (by simp [hh])
    have hn' : (b.num : ℚ) ≠ 0 := by exact_mod_cast h
    have hna : (a.num : ℚ) = a * a.den := by
      have := Rat.num_div_den a
      rw [div_eq_iff ha'] at this
      exact this.symm ▸ rfl
    have hnb : (b.num : ℚ) = b * b.den := by
      have := Rat.num_div_den b
      rw [div_eq_iff hb'] at this
      exact this.symm ▸ rfl
    push_cast
    rw [div_eq_div_iff (mul_ne_zero ha' hn') hbq]
    rw [hna, hnb]
    ring

/-- The numerator of a rational is the rational times its denominator. -/
theorem num_eq_mul_den (a : ℚ) : (a.num : ℚ) = a * a.den := by
  have h : (a.den : ℚ) ≠ 0 := by exact_mod_cast a.den_nz
  have := Rat.num_div_den a
  rw [div_eq_iff h] at this
  exact this.symm ▸ rfl

/-- `qadd` is the addition of `ℚ`. -/
theorem qadd_eq (a b : ℚ) : qadd a b = a + b := by
  unfold qadd
  have ha' : (a.den : ℚ) ≠ 0 := by exact_mod_cast a.den_nz
  have hb' : (b.den : ℚ) ≠ 0 := by exact_mod_cast b.den_nz
  rw [Rat.divInt_eq_div]
  push_cast
  field_simp
  linear_combination (b.den : ℚ) * num_eq_mul_den a + (a.den : ℚ) * num_eq_mul_den b

/-- `qsub` is the subtraction of `ℚ`. -/
theorem qsub_eq (a b : ℚ) : qsub a b = a - b := by
  unfold qsub
  have ha' : (a.den : ℚ) ≠ 0 := by exact_mod_cast a.den_nz
  have hb' : (b.den : ℚ) ≠ 0 := by exact_mod_cast b.den_nz
  rw [Rat.divInt_eq_div]
  push_cast
  field_simp
  linear_combination (b.den : ℚ) * num_eq_mul_den a - (a.den : ℚ) * num_eq_mul_den b

/-- `qmul` is the multiplication of `ℚ`. -/
theorem qmul_eq (a b : ℚ) : qmul a b = a * b := by
  unfold qmul
  have ha' : (a.den : ℚ) ≠ 0 := by exact_mod_cast a.den_nz
  have hb' : (b.den : ℚ) ≠ 0 := by exact_mod_cast b.den_nz
  rw [Rat.divInt_eq_div]
  push_cast
  field_simp
  linear_combination (b.num : ℚ) * num_eq_mul_den a + (a * (a.den : ℚ)) * num_eq_mul_den b

/-- Bit-level characterization of the two-bit field write. -/
theorem set_raw_eq (x p v : Nat) (hx : x < 2 ^ 128) (hv : v < 4) (hp : p + 2 ≤ 128) :
    (x &&& ((2 ^ 128 - 1) ^^^ ((1 <<< p) ||| (1 <<< (p + 1))))) ||| (v <<< p) =
      x % 2 ^ p + v * 2 ^ p + x / 2 ^ (p + 2) * 2 ^ (p + 2) := by
  apply Nat.eq_of_testBit_eq
  intro k
  have hsmall : x % 2 ^ p + v * 2 ^ p < 2 ^ (p + 2) := by
    have h1 : x % 2 ^ p < 2 ^ p := Nat.mod_lt _ (Nat.pos_pow_of_pos p (by norm_num))
    have h2 : v * 2 ^ p ≤ 3 * 2 ^ p := Nat.mul_le_mul_right _ (by omega)
    have h3 : (2:Nat) ^ (p + 2) = 4 * 2 ^ p := by ring
    omega
  have hrhs : x % 2 ^ p + v * 2 ^ p + x / 2 ^ (p + 2) * 2 ^ (p + 2) =
      2 ^ (p + 2) * (x / 2 ^ (p + 2)) + (x % 2 ^ p + v * 2 ^ p) := by ring
  rw [hrhs, Nat.testBit_mul_pow_two_add _ hsmall]
  rw [Nat.testBit_or, Nat.testBit_and, Nat.testBit_xor, Nat.testBit_or]
  rw [Nat.one_shiftLeft, Nat.one_shiftLeft, Nat.testBit_two_pow_sub_one]
  rw [Nat.testBit_two_pow, Nat.testBit_two_pow]
  rw [Nat.testBit_shiftLeft]
  have hinner : x % 2 ^ p + v * 2 ^ p = 2 ^ p * v + x % 2 ^ p := by ring
  by_cases hk : k < p
  · -- low bits: unchanged
    rw [if_pos (by omega : k < p + 2)]
    rw [hinner, Nat.testBit_mul_pow_two_add _ (Nat.mod_lt _ (Nat.pos_pow_of_pos p (by norm_num)))]
    rw [if_pos hk, Nat.testBit_mod_two_pow]
    have h1 : decide (k < 128) = true := by simp; omega
    have h2 : decide (p = k) = false := by simp; omega
    have h3 : decide (p + 1 = k) = false := by simp; omega
    have h4 : decide (k ≥ p) = false := by simp; omega
    have h5 : decide (k < p) = true := by simp; omega
    rw [h1, h2, h3, h4, h5]
    simp
  · by_cases hk2 : k < p + 2
    · -- the two bits of the written value
      rw [if_pos hk2]
      rw [hinner, Nat.testBit_mul_pow_two_add _ (Nat.mod_lt _ (Nat.pos_pow_of_pos p (by norm_num)))]
      rw [if_neg (by omega : ¬ k < p)]
      have h1 : decide (k < 128) = true := by simp; omega
      have h4 : decide (k ≥ p) = true := by simp; omega
      rw [h1, h4]
      have hpk : p = k ∨ p + 1 = k := by omega
      rcases hpk with h | h
      · have h2 : decide (p = k) = true := by simp [h]
        have h3 : decide (p + 1 = k) = false := by simp; omega
        rw [h2, h3]
        simp
      · have h2 : decide (p = k) = false := by simp; omega
        have h3 : decide (p + 1 = k) = true := by simp [h]
        rw [h2, h3]
        simp
    · by_cases hk3 : k < 128
      · -- high in-range bits: unchanged
        rw [if_neg (by omega : ¬ k < p + 2)]
        have hdivbit : (x / 2 ^ (p + 2)).testBit (k - (p + 2)) = x.testBit k := by
          rw [← Nat.shiftRight_eq_div_pow, Nat.testBit_shiftRight]
          congr 1
          omega
        rw [hdivbit]
        have h1 : decide (k < 128) = true := by simp; omega
        have h2 : decide (p = k) = false := by simp; omega
        have h3 : decide (p + 1 = k) = false := by simp; omega
        have h4 : decide (k ≥ p) = true := by simp; omega
        rw [h1, h2, h3, h4]
        have h4le : (4:Nat) ≤ 2 ^ (k - p) := by
          calc (4:Nat) = 2 ^ 2 := by norm_num
          _ ≤ 2 ^ (k - p) := Nat.pow_le_pow_right (by norm_num) (by omega)
        have hvb : v.testBit (k - p) = false :=
          Nat.testBit_lt_two_pow (lt_of_lt_of_le hv h4le)
        rw [hvb]
        simp
      · -- bits at or above 128: everything is zero
        rw [if_neg (by omega : ¬ k < p + 2)]
        have hdivbit : (x / 2 ^ (p + 2)).testBit (k - (p + 2)) = x.testBit k := by
          rw [← Nat.shiftRight_eq_div_pow, Nat.testBit_shiftRight]
          congr 1
          omega
        rw [hdivbit]
        have h128le : (2:Nat) ^ 128 ≤ 2 ^ k := Nat.pow_le_pow_right (by norm_num) (by omega)
        have hxb : x.testBit k = false :=
          Nat.testBit_lt_two_pow (lt_of_lt_of_le hx h128le)
        have h1 : decide (k < 128) = false := by simp; omega
        have h2 : decide (p = k) = false := by simp; omega
        have h3 : decide (p + 1 = k) = false := by simp; omega
        have h4le : (4:Nat) ≤ 2 ^ (k - p) := by
          calc (4:Nat) = 2 ^ 2 := by norm_num
          _ ≤ 2 ^ (k - p) := Nat.pow_le_pow_right (by norm_num) (by omega)
        have hvb : v.testBit (k - p) = false :=
          Nat.testBit_lt_two_pow (lt_of_lt_of_le hv h4le)
        rw [h1, h2, h3, hxb, hvb]
        simp

/-- Reading back the written field. -/
theorem digit_same (x p v : Nat) (hv : v < 4) :
    (x % 2 ^ p + v * 2 ^ p + x / 2 ^ (p + 2) * 2 ^ (p + 2)) / 2 ^ p % 4 = v := by
  have hpos : 0 < (2:Nat) ^ p := Nat.pos_pow_of_pos p (by norm_num)
  have hlt : x % 2 ^ p < 2 ^ p := Nat.mod_lt _ hpos
  have hshape : x % 2 ^ p + v * 2 ^ p + x / 2 ^ (p + 2) * 2 ^ (p + 2) =
      x % 2 ^ p + 2 ^ p * (v + 4 * (x / 2 ^ (p + 2))) := by ring
  rw [hshape, Nat.add_mul_div_left _ _ hpos, Nat.div_eq_of_lt hlt, Nat.zero_add]
  rw [Nat.add_mul_mod_self_left]
  exact Nat.mod_eq_of_lt hv

/-- Fields strictly below the write are unchanged. -/
theorem digit_lt (x p q v : Nat) (h : q + 2 ≤ p) :
    (x % 2 ^ p + v * 2 ^ p + x / 2 ^ (p + 2) * 2 ^ (p + 2)) / 2 ^ q % 4 =
      x / 2 ^ q % 4 := by
  have hqpos : 0 < (2:Nat) ^ q := Nat.pos_pow_of_pos q (by norm_num)
  have hp4 : (2:Nat) ^ (p + 2) = 2 ^ p * 4 := by rw [pow_add]; norm_num
  have hpq : (2:Nat) ^ p = 2 ^ q * 2 ^ (p - q) := by
    rw [← pow_add]
    congr 1
    omega
  have hpq2 : (2:Nat) ^ (p - q) = 4 * 2 ^ (p - q - 2) := by
    have h4 : (4:Nat) = 2 ^ 2 := by norm_num
    rw [h4, ← pow_add]
    congr 1
    omega
  have hxdec : x % 2 ^ p + 2 ^ p * (x / 2 ^ p) = x := Nat.mod_add_div x (2 ^ p)
  set A := x % 2 ^ p with hA
  set B := x / 2 ^ (p + 2) with hB
  set C := x / 2 ^ p with hC
  have hnum : A + v * 2 ^ p + B * 2 ^ (p + 2) =
      A + 2 ^ q * (2 ^ (p - q) * (v + 4 * B)) := by
    rw [hp4, hpq]
    ring
  rw [hnum, Nat.add_mul_div_left _ _ hqpos, hpq2]
  rw [show A / 2 ^ q + 4 * 2 ^ (p - q - 2) * (v + 4 * B) =
      A / 2 ^ q + 4 * (2 ^ (p - q - 2) * (v + 4 * B)) from by ring]
  rw [Nat.add_mul_mod_self_left]
  have hxdec2 : x = A + 2 ^ q * (2 ^ (p - q) * C) := by
    calc x = A + 2 ^ p * C := hxdec.symm
    _ = A + 2 ^ q * (2 ^ (p - q) * C) := by rw [hpq]; ring
  conv_rhs => rw [hxdec2]
  rw [Nat.add_mul_div_left _ _ hqpos, hpq2]
  rw [show A / 2 ^ q + 4 * 2 ^ (p - q - 2) * C =
      A / 2 ^ q + 4 * (2 ^ (p - q - 2) * C) from by ring]
  rw [Nat.add_mul_mod_self_left]

/-- Fields strictly above the write are unchanged. -/
theorem digit_gt (x p q v : Nat) (hv : v < 4) (h : p + 2 ≤ q) :
    (x % 2 ^ p + v * 2 ^ p + x / 2 ^ (p + 2) * 2 ^ (p + 2)) / 2 ^ q % 4 =
      x / 2 ^ q % 4 := by
  have hppos : 0 < (2:Nat) ^ (p + 2) := Nat.pos_pow_of_pos _ (by norm_num)
  have hsmall : x % 2 ^ p + v * 2 ^ p < 2 ^ (p + 2) := by
    have h1 : x % 2 ^ p < 2 ^ p := Nat.mod_lt _ (Nat.pos_pow_of_pos p (by norm_num))
    have h2 : v * 2 ^ p ≤ 3 * 2 ^ p := Nat.mul_le_mul_right _ (by omega)
    have h3 : (2:Nat) ^ (p + 2) = 4 * 2 ^ p := by ring
    omega
  have hq : (2:Nat) ^ q = 2 ^ (p + 2) * 2 ^ (q - p - 2) := by
    rw [← pow_add]
    congr 1
    omega
  have hnum : x % 2 ^ p + v * 2 ^ p + x / 2 ^ (p + 2) * 2 ^ (p + 2) =
      x % 2 ^ p + v * 2 ^ p + 2 ^ (p + 2) * (x / 2 ^ (p + 2)) := by ring
  rw [hnum, hq, ← Nat.div_div_eq_div_mul, ← Nat.div_div_eq_div_mul]
  rw [Nat.add_mul_div_left _ _ hppos, Nat.div_eq_of_lt hsmall, Nat.zero_add]

/-- `get_tile` reads the two-bit field at the tile's shift. -/
theorem get_tile_eq (b : OthelloBoard) (t : Tile) :
    b.get_tile t = b.board / 2 ^ tileShift t % 4 := by
  unfold OthelloBoard.get_tile
  dsimp only
  rw [Nat.shiftRight_eq_div_pow, Nat.and_comm]
  have h3 : (1 <<< 2 - 1 : Nat) = 2 ^ 2 - 1 := rfl
  rw [h3, Nat.and_pow_two_sub_one_eq_mod]

/-- Every cell read is a two-bit value. -/
theorem get_tile_lt (b : OthelloBoard) (t : Tile) : b.get_tile t < 4 := by
  rw [get_tile_eq]
  exact Nat.mod_lt _ (by norm_num)

/-- `set_tile` never touches the turn flag. -/
theorem set_tile_black (b : OthelloBoard) (t : Tile) (v : Nat) :
    (b.set_tile t v).black_move = b.black_move := rfl

/-- An in-bounds tile's shift is an even number at most 126. -/
theorem tileShift_le (t : Tile) (ht : t.in_bounds = true) :
    tileShift t + 2 ≤ 128 := by
  have h := ht
  unfold Tile.in_bounds at h
  simp only [Bool.and_eq_true, decide_eq_true_eq] at h
  unfold tileShift
  omega

/-- Distinct in-bounds tiles write non-overlapping two-bit fields. -/
theorem tileShift_inj (t t' : Tile) (ht : t.in_bounds = true)
    (ht' : t'.in_bounds = true) (hne : t ≠ t') :
    tileShift t + 2 ≤ tileShift t' ∨ tileShift t' + 2 ≤ tileShift t := by
  have h := ht
  have h' := ht'
  unfold Tile.in_bounds at h h'
  simp only [Bool.and_eq_true, decide_eq_true_eq] at h h'
  have hcoord : t.row ≠ t'.row ∨ t.col ≠ t'.col := by
    by_contra hc
    push_neg at hc
    exact hne (by cases t; cases t'; simp_all)
  unfold tileShift
  rcases hcoord with hr | hc <;> omega

/-- `set_tile` keeps the board inside 128 bits. -/
theorem set_tile_lt (b : OthelloBoard) (t : Tile) (v : Nat)
    (hb : b.board < 2 ^ 128) (hv : v < 4) (ht : t.in_bounds = true) :
    (b.set_tile t v).board < 2 ^ 128 := by
  unfold OthelloBoard.set_tile
  dsimp only
  have hleft : b.board &&& (MASK128 ^^^ ((1 <<< tileShift t) ||| (1 <<< (tileShift t + 1)))) <
      2 ^ 128 := lt_of_le_of_lt Nat.and_le_left hb
  have hright : v <<< tileShift t < 2 ^ 128 := by
    rw [Nat.shiftLeft_eq]
    have h1 : v * 2 ^ tileShift t < 4 * 2 ^ tileShift t := by
      have := Nat.pos_pow_of_pos (tileShift t) (show 0 < 2 by norm_num)
      exact Nat.mul_lt_mul_of_lt_of_le hv le_rfl this
    have h2 : (4:Nat) * 2 ^ tileShift t = 2 ^ (tileShift t + 2) := by
      rw [pow_add]
      ring
    have h3 : (2:Nat) ^ (tileShift t + 2) ≤ 2 ^ 128 :=
      Nat.pow_le_pow_right (by norm_num) (tileShift_le t ht)
    omega
  exact Nat.or_lt_two_pow hleft hright

/-- The packed-board value of a `set_tile` write, in digit form. -/
theorem set_tile_board (b : OthelloBoard) (t : Tile) (v : Nat)
    (hb : b.board < 2 ^ 128) (hv : v < 4) (ht : t.in_bounds = true) :
    (b.set_tile t v).board =
      b.board % 2 ^ tileShift t + v * 2 ^ tileShift t +
        b.board / 2 ^ (tileShift t + 2) * 2 ^ (tileShift t + 2) := by
  unfold OthelloBoard.set_tile MASK128
  dsimp only
  exact set_raw_eq b.board (tileShift t) v hb hv (tileShift_le t ht)

/-- Reading the tile just written. -/
theorem get_set_same (b : OthelloBoard) (t : Tile) (v : Nat)
    (hb : b.board < 2 ^ 128) (hv : v < 4) (ht : t.in_bounds = true) :
    (b.set_tile t v).get_tile t = v := by
  rw [get_tile_eq, set_tile_board b t v hb hv ht]
  exact digit_same b.board (tileShift t) v hv

/-- Reading any other in-bounds tile after a write. -/
theorem get_set_ne (b : OthelloBoard) (t t' : Tile) (v : Nat)
    (hb : b.board < 2 ^ 128) (hv : v < 4) (ht : t.in_bounds = true)
    (ht' : t'.in_bounds = true) (hne : t' ≠ t) :
    (b.set_tile t v).get_tile t' = b.get_tile t' := by
  rw [get_tile_eq, get_tile_eq, set_tile_board b t v hb hv ht]
  rcases tileShift_inj t t' ht ht' (fun h => hne h.symm) with h | h
  · exact digit_gt b.board (tileShift t) (tileShift t') v hv h
  · exact digit_lt b.board (tileShift t) (tileShift t') v h

/-- C4: the Zobrist fingerprint reads only the 64 cell contents, never
the `black_move` flag, so the two positions with the same packed cells
and opposite sides to move get the same hash — and therefore the same
transposition-cache bucket and the same exact-match key. -/
theorem claim_C4 (table : Nat → Nat → Nat) (board : Nat) :
    ZHasher.hash ⟨table⟩ ⟨board, true⟩ = ZHasher.hash ⟨table⟩ ⟨board, false⟩ ∧
    (ZHasher.hash ⟨table⟩ ⟨board, true⟩) % CACHE_SIZE =
      (ZHasher.hash ⟨table⟩ ⟨board, false⟩) % CACHE_SIZE :=
  ⟨rfl, rfl⟩

/-- One `put` step preserves "slot 0 is occupied with depth at least
`d`" for every bucket. -/
theorem putLine_slot0_mono (tt : TranspositionTable) (n : CacheNode) (i : Nat)
    (e : CacheNode) (h : ((tt.cache i).1 = some e)) :
    ∃ e', ((tt.put n).cache i).1 = some e' ∧ e.depth ≤ e'.depth := by
  unfold TranspositionTable.put
  dsimp only
  by_cases hi : i = n.key % CACHE_SIZE
  · subst hi
    rw [if_pos rfl]
    unfold putLine
    rw [h]
    dsimp only
    split
    · exact ⟨n, rfl, le_of_lt (by assumption)⟩
    · exact ⟨e, rfl, le_rfl⟩
  · rw [if_neg hi]
    exact ⟨e, h, le_rfl⟩

/-- C8: the two-slot replacement policy.  First part: a single `put`
whose bucket's depth-preferred slot holds `e` overwrites that slot
exactly when the new entry is strictly deeper (demoting `e` to the
always-replace slot) and otherwise writes only the always-replace slot,
leaving every other bucket untouched; second part: across any sequence
of `put` calls the depth of a bucket's depth-preferred slot never
decreases. -/
theorem claim_C8 :
    (∀ (tt : TranspositionTable) (node e : CacheNode),
      (tt.cache (node.key % CACHE_SIZE)).1 = some e →
      (node.depth > e.depth →
        (tt.put node).cache (node.key % CACHE_SIZE) = (some node, some e)) ∧
      (¬ node.depth > e.depth →
        (tt.put node).cache (node.key % CACHE_SIZE) = (some e, some node)) ∧
      (∀ i, i ≠ node.key % CACHE_SIZE → (tt.put node).cache i = tt.cache i)) ∧
    (∀ (tt : TranspositionTable) (nodes : List CacheNode) (i : Nat) (e : CacheNode),
      (tt.cache i).1 = some e →
      ∃ e', ((nodes.foldl TranspositionTable.put tt).cache i).1 = some e' ∧
        e.depth ≤ e'.depth) := by
  constructor
  · intro tt node e h
    refine ⟨fun hd => ?_, fun hd => ?_, fun i hi => ?_⟩
    · unfold TranspositionTable.put
      dsimp only
      rw [if_pos rfl]
      unfold putLine
      rw [h]
      dsimp only
      rw [if_pos hd]
    · unfold TranspositionTable.put
      dsimp only
      rw [if_pos rfl]
      unfold putLine
      rw [h]
      dsimp only
      rw [if_neg hd]
    · unfold TranspositionTable.put
      dsimp only
      rw [if_neg hi]
  · intro tt nodes
    induction nodes generalizing tt with
    | nil => exact fun i e h => ⟨e, h, le_rfl⟩
    | cons n rest ih =>
      intro i e h
      obtain ⟨e', he', hde⟩ := putLine_slot0_mono tt n i e h
      obtain ⟨e'', he'', hde'⟩ := ih (tt.put n) i e' he'
      exact ⟨e'', he'', le_trans hde hde'⟩

/-- C8 witness: a concrete bucket receiving a shallower and then a
deeper entry exercises both replacement branches and the monotonicity
statement. -/
theorem claim_C8_witness :
    ((TranspositionTable.new.put (CacheNode.new 0 1 3)).cache (0 % CACHE_SIZE)).1 =
        some (CacheNode.new 0 1 3) ∧
    ((TranspositionTable.new.put (CacheNode.new 0 1 3)).put (CacheNode.new 0 2 5)).cache
        (0 % CACHE_SIZE) = (some (CacheNode.new 0 2 5), some (CacheNode.new 0 1 3)) ∧
    (∃ e', ((([CacheNode.new 0 2 5, CacheNode.new 0 3 2].foldl TranspositionTable.put
        (TranspositionTable.new.put (CacheNode.new 0 1 3)))).cache 0).1 = some e' ∧
      (CacheNode.new 0 1 3).depth ≤ e'.depth) := by
  refine ⟨by decide, ?_, ?_⟩
  · exact (claim_C8.1 (TranspositionTable.new.put (CacheNode.new 0 1 3))
      (CacheNode.new 0 2 5) (CacheNode.new 0 1 3) (by decide)).1 (by decide)
  · exact claim_C8.2 (TranspositionTable.new.put (CacheNode.new 0 1 3))
      [CacheNode.new 0 2 5, CacheNode.new 0 3 2] 0 (CacheNode.new 0 1 3) (by decide)

/-- C3 is a code bug: on the board with BLACK on a1 and WHITE on b1
(black to move) black has one legal move and white none, yet the
mobility sub-heuristic returns `0`, not `(1 - 0) / (1 + 0) = 1`: the
guard of `find_mobility_heuristic` is inverted relative to its sibling
heuristics, so the differential quotient is only ever computed in the
`0/0` case.  This theorem evaluates the code at that failing input. -/
theorem claim_C3_bug :
    (⟨6, true⟩ : OthelloBoard).count_potential_moves BLACK = 1 ∧
    (⟨6, true⟩ : OthelloBoard).count_potential_moves WHITE = 0 ∧
    find_mobility_heuristic ⟨6, true⟩ = 0 ∧
    qdiv (qsub 1 0) (qadd 1 0) = 1 := by
  refine ⟨by decide, by decide, by decide, by decide⟩

/-- `set_symbol` rejects every character outside the three recognized
cell symbols. -/
theorem set_symbol_err (b : OthelloBoard) (t : Tile) (c : Char)
    (hE : c ≠ 'E') (hB : c ≠ 'B') (hW : c ≠ 'W') :
    OthelloBoard.set_symbol b t c = Except.error "Tile symbol must be E, B or W" := by
  unfold OthelloBoard.set_symbol
  split <;> simp_all

/-- `set_turn` rejects every character outside the two turn markers. -/
theorem set_turn_err (b : OthelloBoard) (c : Char)
    (hB : c ≠ 'B') (hW : c ≠ 'W') :
    OthelloBoard.set_turn b c = Except.error "Turn must be B or W" := by
  unfold OthelloBoard.set_turn
  split <;> simp_all

/-- C10 amended: at any state of the decoding loop, (1) a non-digit,
non-slash character whose pending run would exceed 8 columns is rejected
with the run-length error; (2) a character written at least once (the
pending count is positive) that is not one of the three cell symbols is
rejected with the symbol error; (3) once past row 7, a character other
than the two turn markers is rejected with the turn error.  (A run-length
digit `0` makes the following symbol character write nothing, so it is
not validated — see the counterexample.) -/
theorem claim_C10_amended :
    (∀ (b : OthelloBoard) (row col count : Int) (c : Char) (cs : List Char),
      ¬ row > 7 → c ≠ '/' → charToDigit10 c = none → count + col > 8 →
      fromNotationAux b row col count (c :: cs) =
        Except.error "Cannot have more than 8 cols per row") ∧
    (∀ (b : OthelloBoard) (row col count : Int) (c : Char) (cs : List Char),
      ¬ row > 7 → c ≠ '/' → charToDigit10 c = none → ¬ count + col > 8 →
      1 ≤ count → c ≠ 'E' → c ≠ 'B' → c ≠ 'W' →
      fromNotationAux b row col count (c :: cs) =
        Except.error "Tile symbol must be E, B or W") ∧
    (∀ (b : OthelloBoard) (row col count : Int) (c : Char) (cs : List Char),
      row > 7 → c ≠ 'B' → c ≠ 'W' →
      fromNotationAux b row col count (c :: cs) = Except.error "Turn must be B or W") := by
  refine ⟨?_, ?_, ?_⟩
  · intro b row col count c cs hrow hc hdig hcnt
    unfold fromNotationAux
    rw [if_neg hrow, if_neg hc, hdig]
    exact if_pos hcnt
  · intro b row col count c cs hrow hc hdig hcnt hpos hE hB hW
    unfold fromNotationAux
    rw [if_neg hrow, if_neg hc, hdig]
    rw [if_neg hcnt]
    obtain ⟨m, hm⟩ : ∃ m, count.toNat = m + 1 := ⟨count.toNat - 1, by omega⟩
    rw [hm]
    unfold fromNotationAux.writeRun
    rw [set_symbol_err b _ c hE hB hW]
  · intro b row col count c cs hrow hB hW
    unfold fromNotationAux
    rw [if_pos hrow]
    exact set_turn_err b c hB hW

/-- C10 witness: the three rejection branches at concrete inputs. -/
theorem claim_C10_witness :
    fromNotationAux OthelloBoard.new 0 0 9 ('B' :: []) =
      Except.error "Cannot have more than 8 cols per row" ∧
    fromNotationAux OthelloBoard.new 0 0 1 ('X' :: []) =
      Except.error "Tile symbol must be E, B or W" ∧
    fromNotationAux OthelloBoard.new 8 0 1 ('X' :: []) =
      Except.error "Turn must be B or W" :=
  ⟨claim_C10_amended.1 OthelloBoard.new 0 0 9 'B' [] (by decide) (by decide)
      (by decide) (by decide),
   claim_C10_amended.2.1 OthelloBoard.new 0 0 1 'X' [] (by decide) (by decide)
      (by decide) (by decide) (by decide) (by decide) (by decide) (by decide),
   claim_C10_amended.2.2 OthelloBoard.new 8 0 1 'X' [] (by decide) (by decide)
      (by decide)⟩

/-- C10 counterexample to the claim as stated: the input `"0X"` carries
the cell symbol `'X'`, which is outside the three recognized symbols,
yet decoding succeeds (returning the fresh `OthelloBoard::new()` state),
because the preceding run-length digit `0` makes the write loop run zero
times and skip symbol validation. -/
theorem claim_C10_counterexample :
    OthelloBoard.from_notation ('0' :: 'X' :: []) = Except.ok OthelloBoard.new ∧
    ('X' ≠ 'E' ∧ 'X' ≠ 'B' ∧ 'X' ≠ 'W') := by
  refine ⟨by rfl, by decide, by decide, by decide⟩

/-- C9 amended: `evaluate_base` iterates `evaluate` at depths
`1 .. max_search_depth - 2` keeping only the last pass's result (the
deepest pass, run against the cache warmed by the shallower ones), and
for `max_search_depth` below 3 the loop body never runs at all: the
returned score is the initial `0`, not the result of a single
evaluation pass. -/
theorem claim_C9_amended (use_cache : Bool) (hasher : ZHasher) (config : AgentConfig)
    (board : OthelloBoard) (tt : TranspositionTable) :
    (config.max_search_depth ≤ 2 →
      evaluate_base use_cache hasher config board tt = (0, tt)) ∧
    (3 ≤ config.max_search_depth →
      evaluate_base use_cache hasher config board tt =
        evaluateWith use_cache hasher (config.max_search_depth - 2) board
          board.black_move F32_MIN F32_MAX
          (evaluate_base use_cache hasher ⟨config.max_search_depth - 1⟩ board tt).2) := by
  constructor
  · intro h
    unfold evaluate_base
    have h0 : config.max_search_depth - 1 - 1 = 0 := by omega
    rw [h0]
    rfl
  · intro h
    obtain ⟨k, hk⟩ : ∃ k, config.max_search_depth = k + 3 := ⟨config.max_search_depth - 3, by omega⟩
    unfold evaluate_base
    rw [hk]
    have h1 : k + 3 - 1 - 1 = k + 1 := by omega
    have h3 : k + 3 - 2 = k + 1 := by omega
    have h4 : k + 1 - 1 = k := by omega
    rw [h1, h3, h4]
    rw [List.range'_1_concat, List.foldl_append, Nat.add_comm 1 k]
    rfl

/-- C9 witness: at `max_search_depth = 4` the deepest (and only warmth)
structure is exercised; at `max_search_depth = 2` the loop is empty. -/
theorem claim_C9_witness :
    evaluate_base true ⟨fun _ _ => 0⟩ ⟨2⟩ ⟨6, true⟩ TranspositionTable.new =
      (0, TranspositionTable.new) ∧
    evaluate_base true ⟨fun _ _ => 0⟩ ⟨4⟩ ⟨6, true⟩ TranspositionTable.new =
      evaluateWith true ⟨fun _ _ => 0⟩ 2 ⟨6, true⟩ true F32_MIN F32_MAX
        (evaluate_base true ⟨fun _ _ => 0⟩ ⟨3⟩ ⟨6, true⟩ TranspositionTable.new).2 :=
  ⟨(claim_C9_amended true ⟨fun _ _ => 0⟩ ⟨2⟩ ⟨6, true⟩ TranspositionTable.new).1
      (by decide),
   (claim_C9_amended true ⟨fun _ _ => 0⟩ ⟨4⟩ ⟨6, true⟩ TranspositionTable.new).2
      (by decide)⟩

/-- C9 counterexample to the claim as stated: with
`max_search_depth = 2` (a positive integer below 3) the iterative
deepening loop `1 .. max_search_depth - 1` is empty, so every child's
score is the initial `0` — not the result of "a single evaluation pass",
which on this position yields `100` (a depth-1 pass) or `150` (the bare
static heuristic). -/
theorem claim_C9_counterexample :
    (evaluate_base true ⟨fun _ _ => 0⟩ ⟨2⟩ ⟨6, true⟩ TranspositionTable.new).1 = 0 ∧
    (evaluateWith true ⟨fun _ _ => 0⟩ 1 ⟨6, true⟩ true F32_MIN F32_MAX
      TranspositionTable.new).1 = 100 ∧
    find_heuristic ⟨6, true⟩ = 150 := by
  refine ⟨by decide, by decide, by decide⟩

/-- The ranking fold appends exactly one entry per enumerated move, so
the tiles of the pre-sort list are the legal moves in order. -/
theorem ranked_fold_tiles (use_cache : Bool) (hasher : ZHasher) (config : AgentConfig)
    (board : OthelloBoard) (moves : List Tile) :
    ∀ (acc : List RankedTile × TranspositionTable),
    ((moves.foldl (fun (st : List RankedTile × TranspositionTable) mov =>
        let child := board.make_move mov
        let r := evaluate_base use_cache hasher config child st.2
        (st.1 ++ [RankedTile.new mov r.1], r.2)) acc).1).map RankedTile.tile =
      acc.1.map RankedTile.tile ++ moves := by
  induction moves with
  | nil => intro acc; simp
  | cons m rest ih =>
    intro acc
    rw [List.foldl_cons, ih]
    simp [RankedTile.new]

/-- C2 amended: `find_ranked_moves` returns one entry per legal move
(the multiset of returned tiles is exactly the legal-move enumeration),
sorted by score ascending when the maximizing side (black) is to move
and descending when the minimizing side (white) is to move — i.e. the
list is worst-first / best-last for the side to move. -/
theorem claim_C2_amended (use_cache : Bool) (hasher : ZHasher) (config : AgentConfig)
    (board : OthelloBoard) (tt : TranspositionTable) :
    ((find_ranked_moves use_cache hasher config board tt).1.map RankedTile.tile).Perm
      board.find_current_moves_as_vec ∧
    (board.black_move = true →
      (find_ranked_moves use_cache hasher config board tt).1.Sorted
        (fun a b => a.heuristic ≤ b.heuristic)) ∧
    (board.black_move = false →
      (find_ranked_moves use_cache hasher config board tt).1.Sorted
        (fun a b => b.heuristic ≤ a.heuristic)) := by
  unfold find_ranked_moves
  refine ⟨?_, ?_, ?_⟩
  · cases hb : board.black_move
    · simp only [hb, if_false]
      refine ((List.perm_insertionSort _ _).map RankedTile.tile).trans ?_
      rw [ranked_fold_tiles]
      simp
    · simp only [hb, if_true]
      refine ((List.perm_insertionSort _ _).map RankedTile.tile).trans ?_
      rw [ranked_fold_tiles]
      simp
  · intro hb
    simp only [hb, if_true]
    exact List.sorted_insertionSort _ _
  · intro hb
    simp only [hb, if_false]
    exact List.sorted_insertionSort _ _

/-- C2 witness: the amended sorting property at a concrete position. -/
theorem claim_C2_witness :
    ((⟨65558, true⟩ : OthelloBoard).black_move = true) ∧
    (find_ranked_moves true ⟨fun _ _ => 0⟩ ⟨3⟩ ⟨65558, true⟩
      TranspositionTable.new).1.Sorted (fun a b => a.heuristic ≤ b.heuristic) :=
  ⟨rfl, (claim_C2_amended true ⟨fun _ _ => 0⟩ ⟨3⟩ ⟨65558, true⟩
      TranspositionTable.new).2.1 rfl⟩

/-- C2 counterexample to the claim as stated: on a position with black
(the maximizer) to move and two legal moves of distinct scores, the
returned list is ascending — the best score comes last, not first. -/
theorem claim_C2_counterexample :
    (⟨65558, true⟩ : OthelloBoard).black_move = true ∧
    (find_ranked_moves true ⟨fun _ _ => 0⟩ ⟨3⟩ ⟨65558, true⟩ TranspositionTable.new).1 =
      [RankedTile.new (Tile.new 2 0) 110, RankedTile.new (Tile.new 0 3) 130] ∧
    (110 : ℚ) < 130 := by
  refine ⟨rfl, by decide, by decide⟩

/-! ### Alpha-beta equivalence (C5) -/

/-- One-step unfolding of the cache-disabled `evaluate` at positive
depth (the probe is a miss by construction). -/
theorem evaluateWith_false_succ (hasher : ZHasher) (d : Nat) (b : OthelloBoard)
    (m : Bool) (alpha beta : ℚ) (tt : TranspositionTable) :
    evaluateWith false hasher (d + 1) b m alpha beta tt =
      (fun children =>
        if children.isEmpty then (find_heuristic b, tt)
        else if m then
          (fun r => (r.1, r.2.put (CacheNode.new (hasher.hash b) r.1 (d + 1))))
            (abLoopMax (fun c a bt t => evaluateWith false hasher d c false a bt t)
              children alpha beta tt)
        else
          (fun r => (r.1, r.2.put (CacheNode.new (hasher.hash b) r.1 (d + 1))))
            (abLoopMin (fun c a bt t => evaluateWith false hasher d c true a bt t)
              children alpha beta tt))
      (b.find_current_moves_as_vec.map b.make_move) := rfl

/-- One-step unfolding of the reference minimax at positive depth. -/
theorem minimax_succ (d : Nat) (b : OthelloBoard) (m : Bool) :
    minimax (d + 1) b m =
      (fun children =>
        if children.isEmpty then find_heuristic b
        else if m then
          children.foldl (fun a c => max a (minimax d c false)) F32_MIN
        else
          children.foldl (fun a c => min a (minimax d c true)) F32_MAX)
      (b.find_current_moves_as_vec.map b.make_move) := rfl

/-- A max-fold over a list is at least its seed. -/
theorem fold_max_ge_seed (g : OthelloBoard → ℚ) :
    ∀ (cs : List OthelloBoard) (s : ℚ), s ≤ cs.foldl (fun x c => max x (g c)) s := by
  intro cs
  induction cs with
  | nil => intro s; simp
  | cons c rest ih =>
    intro s
    rw [List.foldl_cons]
    exact le_trans (le_max_left s (g c)) (ih (max s (g c)))

/-- A min-fold over a list is at most its seed. -/
theorem fold_min_le_seed (g : OthelloBoard → ℚ) :
    ∀ (cs : List OthelloBoard) (s : ℚ), cs.foldl (fun x c => min x (g c)) s ≤ s := by
  intro cs
  induction cs with
  | nil => intro s; simp
  | cons c rest ih =>
    intro s
    rw [List.foldl_cons]
    exact le_trans (ih (min s (g c))) (min_le_left s (g c))

/-- Raising the seed of a max-fold just maxes it in. -/
theorem fold_max_seed (g : OthelloBoard → ℚ) :
    ∀ (cs : List OthelloBoard) (s t : ℚ), t ≤ s →
      cs.foldl (fun x c => max x (g c)) s =
        max s (cs.foldl (fun x c => max x (g c)) t) := by
  intro cs
  induction cs with
  | nil => intro s t h; simp [max_eq_left h]
  | cons c rest ih =>
    intro s t h
    rw [List.foldl_cons, List.foldl_cons]
    rw [ih (max s (g c)) (max t (g c)) (max_le_max_right (g c) h)]
    have h1 : g c ≤ rest.foldl (fun x c => max x (g c)) (max t (g c)) :=
      le_trans (le_max_right t (g c)) (fold_max_ge_seed g rest _)
    rw [max_assoc, max_eq_right h1]

/-- Lowering the seed of a min-fold just mins it in. -/
theorem fold_min_seed (g : OthelloBoard → ℚ) :
    ∀ (cs : List OthelloBoard) (s t : ℚ), s ≤ t →
      cs.foldl (fun x c => min x (g c)) s =
        min s (cs.foldl (fun x c => min x (g c)) t) := by
  intro cs
  induction cs with
  | nil => intro s t h; simp [min_eq_left h]
  | cons c rest ih =>
    intro s t h
    rw [List.foldl_cons, List.foldl_cons]
    rw [ih (min s (g c)) (min t (g c)) (min_le_min_right (g c) h)]
    have h1 : rest.foldl (fun x c => min x (g c)) (min t (g c)) ≤ g c :=
      le_trans (fold_min_le_seed g rest _) (min_le_right t (g c))
    rw [min_assoc, min_eq_right h1]

/-- min and max over a linear order commute around a window. -/
theorem minmax_comm (a b v : ℚ) (h : a ≤ b) :
    min b (max a v) = max a (min b v) := by
  rcases le_total v a with hv | hv <;> rcases le_total v b with hb | hb <;>
    simp only [min_def, max_def] <;> split_ifs <;> linarith

/-- The maximizer loop's result is at least its running alpha, whatever
the child evaluator is. -/
theorem abLoopMax_ge (f : OthelloBoard → ℚ → ℚ → TranspositionTable → ℚ × TranspositionTable) :
    ∀ (cs : List OthelloBoard) (a b : ℚ) (tt : TranspositionTable),
      a ≤ (abLoopMax f cs a b tt).1 := by
  intro cs
  induction cs with
  | nil => intro a b tt; exact le_rfl
  | cons c rest ih =>
    intro a b tt
    simp only [abLoopMax]
    split
    · exact le_max_left a _
    · exact le_trans (le_max_left a _) (ih _ b _)

/-- The minimizer loop's result is at most its running beta. -/
theorem abLoopMin_le (f : OthelloBoard → ℚ → ℚ → TranspositionTable → ℚ × TranspositionTable) :
    ∀ (cs : List OthelloBoard) (a b : ℚ) (tt : TranspositionTable),
      (abLoopMin f cs a b tt).1 ≤ b := by
  intro cs
  induction cs with
  | nil => intro a b tt; exact le_rfl
  | cons c rest ih =>
    intro a b tt
    simp only [abLoopMin]
    split
    · exact min_le_left b _
    · exact le_trans (ih a _ _) (min_le_left b _)

/-- The counting folds of the heuristics keep both components
non-negative. -/
theorem count_fold_nonneg {β : Type} (g : β → Nat) (l : List β) :
    ∀ (p : ℚ × ℚ), 0 ≤ p.1 → 0 ≤ p.2 →
      0 ≤ (l.foldl (fun (p : ℚ × ℚ) x =>
        let p := if g x = WHITE then (qadd p.1 1, p.2) else p
        if g x = BLACK then (p.1, qadd p.2 1) else p) p).1 ∧
      0 ≤ (l.foldl (fun (p : ℚ × ℚ) x =>
        let p := if g x = WHITE then (qadd p.1 1, p.2) else p
        if g x = BLACK then (p.1, qadd p.2 1) else p) p).2 := by
  induction l with
  | nil => intro p h1 h2; exact ⟨h1, h2⟩
  | cons x rest ih =>
    intro p h1 h2
    rw [List.foldl_cons]
    apply ih
    · dsimp only
      split <;> split <;> simp_all [qadd_eq] <;> linarith
    · dsimp only
      split <;> split <;> simp_all [qadd_eq] <;> linarith

/-- The disc-differential ratio of two non-negative quantities lies in
[-1, 1] (including the 0/0 = 0 convention of `ℚ`). -/
theorem div_ratio_bounds (x y : ℚ) (hx : 0 ≤ x) (hy : 0 ≤ y) :
    -1 ≤ (x - y) / (x + y) ∧ (x - y) / (x + y) ≤ 1 := by
  rcases eq_or_lt_of_le (add_nonneg hx hy) with h | h
  · have hx0 : x = 0 := by linarith
    have hy0 : y = 0 := by linarith
    rw [hx0, hy0]
    norm_num
  · constructor
    · rw [le_div_iff₀ h]
      linarith
    · rw [div_le_one h]
      linarith

/-- The parity sub-heuristic lies in [-1, 1]. -/
theorem parity_bounds (b : OthelloBoard) :
    -1 ≤ find_parity_heuristic b ∧ find_parity_heuristic b ≤ 1 := by
  unfold find_parity_heuristic
  obtain ⟨h1, h2⟩ := count_fold_nonneg (fun t => b.get_tile t) TILES (0, 0) le_rfl le_rfl
  rw [qdiv_eq, qsub_eq, qadd_eq]
  exact div_ratio_bounds _ _ h2 h1

/-- The corner sub-heuristic lies in [-1, 1]. -/
theorem corner_bounds (b : OthelloBoard) :
    -1 ≤ find_corner_heuristic b ∧ find_corner_heuristic b ≤ 1 := by
  unfold find_corner_heuristic
  obtain ⟨h1, h2⟩ := count_fold_nonneg
    (fun c : Int × Int => b.get_tile (Tile.new c.1 c.2)) CORNERS (0, 0) le_rfl le_rfl
  dsimp only
  constructor
  · split
    · rw [qdiv_eq, qsub_eq, qadd_eq]
      exact (div_ratio_bounds _ _ h2 h1).1
    · norm_num
  · split
    · rw [qdiv_eq, qsub_eq, qadd_eq]
      exact (div_ratio_bounds _ _ h2 h1).2
    · norm_num

/-- The X/C-square sub-heuristic lies in [-1, 1]. -/
theorem xc_bounds (b : OthelloBoard) :
    -1 ≤ find_xc_square_heuristic b ∧ find_xc_square_heuristic b ≤ 1 := by
  unfold find_xc_square_heuristic
  obtain ⟨h1, h2⟩ := count_fold_nonneg
    (fun c : Int × Int => b.get_tile (Tile.new c.1 c.2)) XC_SQUARES (0, 0) le_rfl le_rfl
  dsimp only
  constructor
  · split
    · rw [qdiv_eq, qsub_eq, qadd_eq, add_comm]
      exact (div_ratio_bounds _ _ h1 h2).1
    · norm_num
  · split
    · rw [qdiv_eq, qsub_eq, qadd_eq, add_comm]
      exact (div_ratio_bounds _ _ h1 h2).2
    · norm_num

/-- In the `ℚ` model the mobility sub-heuristic is identically zero: the
branch taken whenever a move exists returns the literal 0, and the 0/0
of the other branch is 0 in `ℚ`. -/
theorem mobility_eq_zero (b : OthelloBoard) : find_mobility_heuristic b = 0 := by
  unfold find_mobility_heuristic
  dsimp only
  split
  · rename_i h
    rw [qadd_eq] at h
    have hw : ((b.count_potential_moves WHITE : ℚ)) = 0 := by
      have h1 : (0 : ℚ) ≤ (b.count_potential_moves WHITE : ℚ) := by positivity
      have h2 : (0 : ℚ) ≤ (b.count_potential_moves BLACK : ℚ) := by positivity
      linarith
    have hb : ((b.count_potential_moves BLACK : ℚ)) = 0 := by
      have h1 : (0 : ℚ) ≤ (b.count_potential_moves WHITE : ℚ) := by positivity
      have h2 : (0 : ℚ) ≤ (b.count_potential_moves BLACK : ℚ) := by positivity
      linarith
    rw [qdiv_eq, qsub_eq, qadd_eq, hw, hb]
    norm_num
  · rfl

/-- The full static heuristic lies in [-400, 400]. -/
theorem find_heuristic_bounds (b : OthelloBoard) :
    -400 ≤ find_heuristic b ∧ find_heuristic b ≤ 400 := by
  unfold find_heuristic
  rw [qadd_eq, qadd_eq, qadd_eq, qadd_eq, qmul_eq, qmul_eq, qmul_eq, qmul_eq, qmul_eq,
    mobility_eq_zero]
  have hp := parity_bounds b
  have hc := corner_bounds b
  have hx := xc_bounds b
  have hs : find_stability_heuristic b = 0 := rfl
  rw [hs]
  constructor <;> nlinarith [hp.1, hp.2, hc.1, hc.2, hx.1, hx.2]

/-- The extreme `f32` seeds bracket every heuristic value. -/
theorem f32_brackets : F32_MIN ≤ -400 ∧ (400 : ℚ) ≤ F32_MAX ∧ F32_MIN < F32_MAX ∧
    F32_MIN ≤ F32_MAX := by
  refine ⟨by decide, by decide, by decide, by decide⟩

/-- The static heuristic lies between the `f32` seeds. -/
theorem find_heuristic_f32 (b : OthelloBoard) :
    F32_MIN ≤ find_heuristic b ∧ find_heuristic b ≤ F32_MAX :=
  ⟨le_trans f32_brackets.1 (find_heuristic_bounds b).1,
   le_trans (find_heuristic_bounds b).2 f32_brackets.2.1⟩

/-- A max-fold stays between the seeds when its seed and all folded
values do. -/
theorem fold_max_bounds (g : OthelloBoard → ℚ) :
    ∀ (cs : List OthelloBoard) (s : ℚ), F32_MIN ≤ s → s ≤ F32_MAX →
      (∀ c ∈ cs, F32_MIN ≤ g c ∧ g c ≤ F32_MAX) →
      F32_MIN ≤ cs.foldl (fun x c => max x (g c)) s ∧
        cs.foldl (fun x c => max x (g c)) s ≤ F32_MAX := by
  intro cs
  induction cs with
  | nil => intro s h1 h2 _; exact ⟨h1, h2⟩
  | cons c rest ih =>
    intro s h1 h2 hall
    rw [List.foldl_cons]
    exact ih (max s (g c)) (le_trans h1 (le_max_left _ _))
      (max_le h2 (hall c (List.mem_cons_self c rest)).2)
      (fun x hx => hall x (List.mem_cons_of_mem c hx))

/-- A min-fold stays between the seeds when its seed and all folded
values do. -/
theorem fold_min_bounds (g : OthelloBoard → ℚ) :
    ∀ (cs : List OthelloBoard) (s : ℚ), F32_MIN ≤ s → s ≤ F32_MAX →
      (∀ c ∈ cs, F32_MIN ≤ g c ∧ g c ≤ F32_MAX) →
      F32_MIN ≤ cs.foldl (fun x c => min x (g c)) s ∧
        cs.foldl (fun x c => min x (g c)) s ≤ F32_MAX := by
  intro cs
  induction cs with
  | nil => intro s h1 h2 _; exact ⟨h1, h2⟩
  | cons c rest ih =>
    intro s h1 h2 hall
    rw [List.foldl_cons]
    exact ih (min s (g c)) (le_min h1 (hall c (List.mem_cons_self c rest)).1)
      (le_trans (min_le_left _ _) h2)
      (fun x hx => hall x (List.mem_cons_of_mem c hx))

/-- The reference minimax stays between the `f32` seeds. -/
theorem minimax_bounds :
    ∀ (d : Nat) (b : OthelloBoard) (m : Bool),
      F32_MIN ≤ minimax d b m ∧ minimax d b m ≤ F32_MAX := by
  intro d
  induction d with
  | zero => intro b m; exact find_heuristic_f32 b
  | succ d ih =>
    intro b m
    rw [minimax_succ]
    dsimp only
    split
    · exact find_heuristic_f32 b
    · split
      · exact fold_max_bounds _ _ F32_MIN le_rfl (le_of_lt f32_brackets.2.2.1)
          (fun c _ => ih c false)
      · exact fold_min_bounds _ _ F32_MAX (le_of_lt f32_brackets.2.2.1) le_rfl
          (fun c _ => ih c true)

/-- The maximizer loop stays between the `f32` seeds when its window and
every child value do. -/
theorem abLoopMax_bounds
    (f : OthelloBoard → ℚ → ℚ → TranspositionTable → ℚ × TranspositionTable)
    (hf : ∀ c a bt t, F32_MIN ≤ a → a ≤ F32_MAX → F32_MIN ≤ bt → bt ≤ F32_MAX →
      F32_MIN ≤ (f c a bt t).1 ∧ (f c a bt t).1 ≤ F32_MAX) :
    ∀ (cs : List OthelloBoard) (a b : ℚ) (tt : TranspositionTable),
      F32_MIN ≤ a → a ≤ F32_MAX → F32_MIN ≤ b → b ≤ F32_MAX →
      F32_MIN ≤ (abLoopMax f cs a b tt).1 ∧ (abLoopMax f cs a b tt).1 ≤ F32_MAX := by
  intro cs
  induction cs with
  | nil => intro a b tt h1 h2 _ _; exact ⟨h1, h2⟩
  | cons c rest ih =>
    intro a b tt h1 h2 hb1 hb2
    simp only [abLoopMax]
    have hc := hf c a b tt h1 h2 hb1 hb2
    split
    · exact ⟨le_trans h1 (le_max_left _ _), max_le h2 hc.2⟩
    · exact ih _ b _ (le_trans h1 (le_max_left _ _)) (max_le h2 hc.2) hb1 hb2

/-- The minimizer loop stays between the `f32` seeds when its window and
every child value do. -/
theorem abLoopMin_bounds
    (f : OthelloBoard → ℚ → ℚ → TranspositionTable → ℚ × TranspositionTable)
    (hf : ∀ c a bt t, F32_MIN ≤ a → a ≤ F32_MAX → F32_MIN ≤ bt → bt ≤ F32_MAX →
      F32_MIN ≤ (f c a bt t).1 ∧ (f c a bt t).1 ≤ F32_MAX) :
    ∀ (cs : List OthelloBoard) (a b : ℚ) (tt : TranspositionTable),
      F32_MIN ≤ a → a ≤ F32_MAX → F32_MIN ≤ b → b ≤ F32_MAX →
      F32_MIN ≤ (abLoopMin f cs a b tt).1 ∧ (abLoopMin f cs a b tt).1 ≤ F32_MAX := by
  intro cs
  induction cs with
  | nil => intro a b tt _ _ h1 h2; exact ⟨h1, h2⟩
  | cons c rest ih =>
    intro a b tt ha1 ha2 h1 h2
    simp only [abLoopMin]
    have hc := hf c a b tt ha1 ha2 h1 h2
    split
    · exact ⟨le_min h1 hc.1, le_trans (min_le_left _ _) h2⟩
    · exact ih a _ _ ha1 ha2 (le_min h1 hc.1) (le_trans (min_le_left _ _) h2)

/-- The cache-disabled `evaluate` stays between the `f32` seeds when its
window does. -/
theorem evaluateWith_false_bounds (hasher : ZHasher) :
    ∀ (d : Nat) (b : OthelloBoard) (m : Bool) (alpha beta : ℚ)
      (tt : TranspositionTable),
      F32_MIN ≤ alpha → alpha ≤ F32_MAX → F32_MIN ≤ beta → beta ≤ F32_MAX →
      F32_MIN ≤ (evaluateWith false hasher d b m alpha beta tt).1 ∧
        (evaluateWith false hasher d b m alpha beta tt).1 ≤ F32_MAX := by
  intro d
  induction d with
  | zero => intro b m alpha beta tt _ _ _ _; exact find_heuristic_f32 b
  | succ d ih =>
    intro b m alpha beta tt ha1 ha2 hb1 hb2
    rw [evaluateWith_false_succ]
    dsimp only
    split
    · exact find_heuristic_f32 b
    · split
      · exact abLoopMax_bounds _
          (fun c a bt t h1 h2 h3 h4 => ih c false a bt t h1 h2 h3 h4) _ alpha beta tt
          ha1 ha2 hb1 hb2
      · exact abLoopMin_bounds _
          (fun c a bt t h1 h2 h3 h4 => ih c true a bt t h1 h2 h3 h4) _ alpha beta tt
          ha1 ha2 hb1 hb2

/-- The window equivalence at the heart of alpha-beta correctness:
within the (alpha, beta) window the cache-disabled pruned evaluation
agrees with the full minimax, at every depth. -/
theorem ab_clamp (hasher : ZHasher) :
    ∀ (d : Nat) (b : OthelloBoard) (m : Bool) (alpha beta : ℚ)
      (tt : TranspositionTable),
      F32_MIN ≤ alpha → beta ≤ F32_MAX → alpha < beta →
      max alpha (min beta (evaluateWith false hasher d b m alpha beta tt).1) =
        max alpha (min beta (minimax d b m)) := by
  intro d
  induction d with
  | zero => intro b m alpha beta tt _ _ _; rfl
  | succ d ih =>
    intro b m alpha beta tt hMIN hMAX hab
    have loopmax : ∀ (cs : List OthelloBoard) (a : ℚ) (tt' : TranspositionTable),
        F32_MIN ≤ a → a < beta →
        min beta (abLoopMax
            (fun c a' bt t => evaluateWith false hasher d c false a' bt t)
            cs a beta tt').1 =
          min beta (cs.foldl (fun x c => max x (minimax d c false)) a) := by
      intro cs
      induction cs with
      | nil => intro a tt' _ _; rfl
      | cons c rest ihl =>
        intro a tt' ha1 ha2
        simp only [abLoopMax, List.foldl_cons]
        have hclamp := ih c false a beta tt' ha1 hMAX ha2
        split
        · rename_i hbreak
          have hr1b : beta ≤ (evaluateWith false hasher d c false a beta tt').1 :=
            le_of_not_lt fun h => absurd hbreak (not_le.2 (max_lt ha2 h))
          rw [min_eq_left hbreak]
          have h1 : min beta (evaluateWith false hasher d c false a beta tt').1 = beta :=
            min_eq_left hr1b
          rw [h1, max_eq_right (le_of_lt ha2)] at hclamp
          have hvcb : beta ≤ minimax d c false := by
            by_contra h
            push_neg at h
            rw [min_eq_right (le_of_lt h)] at hclamp
            have := max_lt ha2 h
            rw [← hclamp] at this
            exact lt_irrefl beta this
          have hfold : beta ≤
              rest.foldl (fun x c => max x (minimax d c false))
                (max a (minimax d c false)) :=
            le_trans (le_trans hvcb (le_max_right a _)) (fold_max_ge_seed _ rest _)
          rw [min_eq_left hfold]
        · rename_i hcont
          push_neg at hcont
          have hr1lt : (evaluateWith false hasher d c false a beta tt').1 < beta :=
            lt_of_le_of_lt (le_max_right a _) hcont
          rw [min_eq_right (le_of_lt hr1lt)] at hclamp
          have hvcle : minimax d c false ≤ beta := by
            by_contra h
            push_neg at h
            rw [min_eq_left (le_of_lt h), max_eq_right (le_of_lt ha2)] at hclamp
            rw [hclamp] at hcont
            exact lt_irrefl beta hcont
          rw [min_eq_right hvcle] at hclamp
          rw [ihl _ _ (le_trans ha1 (le_max_left _ _)) hcont, hclamp]
    have loopmin : ∀ (cs : List OthelloBoard) (bt : ℚ) (tt' : TranspositionTable),
        bt ≤ F32_MAX → alpha < bt →
        max alpha (abLoopMin
            (fun c a' bt' t => evaluateWith false hasher d c true a' bt' t)
            cs alpha bt tt').1 =
          max alpha (cs.foldl (fun x c => min x (minimax d c true)) bt) := by
      intro cs
      induction cs with
      | nil => intro bt tt' _ _; rfl
      | cons c rest ihl =>
        intro bt tt' hb1 hb2
        simp only [abLoopMin, List.foldl_cons]
        have hclamp := ih c true alpha bt tt' hMIN hb1 hb2
        split
        · rename_i hbreak
          have hr1b : (evaluateWith false hasher d c true alpha bt tt').1 ≤ alpha :=
            le_of_not_lt fun h => absurd hbreak (not_le.2 (lt_min hb2 h))
          rw [max_eq_left hbreak]
          have h1 : min bt (evaluateWith false hasher d c true alpha bt tt').1 =
              (evaluateWith false hasher d c true alpha bt tt').1 :=
            min_eq_right (le_trans hr1b (le_of_lt hb2))
          rw [h1, max_eq_left hr1b] at hclamp
          have hvca : min bt (minimax d c true) ≤ alpha := by
            by_contra h
            push_neg at h
            rw [max_eq_right (le_of_lt h)] at hclamp
            rw [← hclamp] at h
            exact lt_irrefl alpha h
          have hfold :
              rest.foldl (fun x c => min x (minimax d c true))
                (min bt (minimax d c true)) ≤ alpha :=
            le_trans (fold_min_le_seed _ rest _) hvca
          rw [max_eq_left hfold]
        · rename_i hcont
          push_neg at hcont
          have hr1gt : alpha < (evaluateWith false hasher d c true alpha bt tt').1 :=
            lt_of_lt_of_le hcont (min_le_right bt _)
          have h1 : min bt (evaluateWith false hasher d c true alpha bt tt').1 =
              min bt (evaluateWith false hasher d c true alpha bt tt').1 := rfl
          rw [max_eq_right (le_of_lt hcont)] at hclamp
          have hvcgt : alpha < min bt (minimax d c true) := by
            by_contra h
            push_neg at h
            rw [max_eq_left h] at hclamp
            rw [hclamp] at hcont
            exact lt_irrefl alpha hcont
          rw [max_eq_right (le_of_lt hvcgt)] at hclamp
          rw [ihl _ _ (le_trans (min_le_left bt _) hb1) hcont, hclamp]
    rw [evaluateWith_false_succ, minimax_succ]
    dsimp only
    split
    · rfl
    · split
      · rename_i hm
        dsimp only
        rw [loopmax (b.find_current_moves_as_vec.map b.make_move) alpha tt hMIN hab]
        rw [fold_max_seed (fun c => minimax d c false) _ alpha F32_MIN hMIN]
        rw [minmax_comm _ _ _ (le_of_lt hab)]
        rw [← max_assoc, max_self]
      · rename_i hm
        dsimp only
        have hL := abLoopMin_le
          (fun c a' bt' t => evaluateWith false hasher d c true a' bt' t)
          (b.find_current_moves_as_vec.map b.make_move) alpha beta tt
        rw [min_eq_right hL]
        rw [loopmin (b.find_current_moves_as_vec.map b.make_move) beta tt hMAX hab]
        rw [fold_min_seed (fun c => minimax d c true) _ beta F32_MAX hMAX]

/-- C5: for every position, every depth and every (well-formed) search
state, the score returned by the alpha-beta-pruned `evaluate` — run with
every cache probe missing, starting from the `f32::MIN` / `f32::MAX`
window the engine uses — equals the score of the unpruned full minimax
of the same depth over the same children, with the static heuristic at
depth 0 and at positions without legal children: pruning changes only
the work done, never the result. -/
theorem claim_C5 (hasher : ZHasher) (depth : Nat) (board : OthelloBoard)
    (maximizer : Bool) (tt : TranspositionTable) :
    (evaluateWith false hasher depth board maximizer F32_MIN F32_MAX tt).1 =
      minimax depth board maximizer := by
  have h := ab_clamp hasher depth board maximizer F32_MIN F32_MAX tt le_rfl le_rfl
    f32_brackets.2.2.1
  have hev := evaluateWith_false_bounds hasher depth board maximizer F32_MIN F32_MAX tt
    le_rfl (le_of_lt f32_brackets.2.2.1) (le_of_lt f32_brackets.2.2.1) le_rfl
  have hmm := minimax_bounds depth board maximizer
  rw [min_eq_right hev.2, max_eq_right hev.1, min_eq_right hmm.2,
    max_eq_right hmm.1] at h
  exact h

/-! ### Move-application geometry (C7) -/

/-- `flippedTile` is `flippedOn` over all 8 directions. -/
theorem flippedTile_eq (b : OthelloBoard) (mov t : Tile) :
    flippedTile b mov t = flippedOn DIRECTIONS b mov t := rfl

/-- Stepping from the `j`-th ray tile lands on the `(j+1)`-th. -/
theorem rayTile_step (mov : Tile) (d : Int × Int) (j : Nat) :
    Tile.new ((rayTile mov d j).row + d.1) ((rayTile mov d j).col + d.2) =
      rayTile mov d (j + 1) := by
  unfold rayTile Tile.new
  simp only [Tile.mk.injEq]
  constructor <;> push_cast <;> ring

/-- The first ray tile is the direct neighbour. -/
theorem rayTile_one (mov : Tile) (d : Int × Int) :
    Tile.new (mov.row + d.1) (mov.col + d.2) = rayTile mov d 1 := by
  unfold rayTile Tile.new
  simp only [Tile.mk.injEq]
  constructor <;> push_cast <;> ring

/-- Ray tiles with positive index never revisit the origin. -/
theorem rayTile_ne_mov (mov : Tile) (d : Int × Int) (hd : d ∈ DIRECTIONS) (k : Nat)
    (hk : 1 ≤ k) : rayTile mov d k ≠ mov := by
  simp only [DIRECTIONS, List.mem_cons, List.not_mem_nil, or_false] at hd
  intro h
  have hrow := congrArg Tile.row h
  have hcol := congrArg Tile.col h
  unfold rayTile at hrow hcol
  dsimp only at hrow hcol
  rcases hd with rfl | rfl | rfl | rfl | rfl | rfl | rfl | rfl <;>
    simp at hrow hcol <;> omega

/-- Along one ray, distinct indices give distinct tiles. -/
theorem rayTile_inj (mov : Tile) (d : Int × Int) (hd : d ∈ DIRECTIONS) (k k' : Nat)
    (h : rayTile mov d k = rayTile mov d k') : k = k' := by
  simp only [DIRECTIONS, List.mem_cons, List.not_mem_nil, or_false] at hd
  have hrow := congrArg Tile.row h
  have hcol := congrArg Tile.col h
  unfold rayTile at hrow hcol
  dsimp only at hrow hcol
  rcases hd with rfl | rfl | rfl | rfl | rfl | rfl | rfl | rfl <;>
    simp at hrow hcol <;> omega

/-- Rays of distinct directions from the same origin never meet (at
positive indices). -/
theorem rayTile_disjoint (mov : Tile) (d d' : Int × Int) (hd : d ∈ DIRECTIONS)
    (hd' : d' ∈ DIRECTIONS) (hne : d ≠ d') (k k' : Nat) (hk : 1 ≤ k) (hk' : 1 ≤ k') :
    rayTile mov d k ≠ rayTile mov d' k' := by
  simp only [DIRECTIONS, List.mem_cons, List.not_mem_nil, or_false] at hd hd'
  intro h
  have hrow := congrArg Tile.row h
  have hcol := congrArg Tile.col h
  unfold rayTile at hrow hcol
  dsimp only at hrow hcol
  rcases hd with rfl | rfl | rfl | rfl | rfl | rfl | rfl | rfl <;>
    rcases hd' with rfl | rfl | rfl | rfl | rfl | rfl | rfl | rfl <;>
      first
      | exact hne rfl
      | (simp at hrow hcol <;> omega)

/-- An in-bounds ray tile of an in-bounds origin has index at most 7. -/
theorem ray_inbounds_le (mov : Tile) (d : Int × Int) (k : Nat)
    (hm : mov.in_bounds = true) (hd : d ∈ DIRECTIONS)
    (hk : (rayTile mov d k).in_bounds = true) : k ≤ 7 := by
  simp only [DIRECTIONS, List.mem_cons, List.not_mem_nil, or_false] at hd
  unfold Tile.in_bounds at hm hk
  unfold rayTile at hk
  simp only [Bool.and_eq_true, decide_eq_true_eq] at hm hk
  rcases hd with rfl | rfl | rfl | rfl | rfl | rfl | rfl | rfl <;>
    simp at hk <;> omega

/-- The walk's stopping tile is the start advanced by its count. -/
theorem walkWhile_tile (B : OthelloBoard) (opp : Nat) (mov : Tile) (d : Int × Int) :
    ∀ (fuel j : Nat),
      (walkWhile B opp (rayTile mov d j) d.1 d.2 fuel).1 =
        rayTile mov d (j + (walkWhile B opp (rayTile mov d j) d.1 d.2 fuel).2) := by
  intro fuel
  induction fuel with
  | zero => intro j; rfl
  | succ fuel ih =>
    intro j
    simp only [walkWhile]
    split
    · split
      · rfl
      · dsimp only
        rw [rayTile_step, ih (j + 1)]
        congr 1
        omega
    · rfl

/-- Every tile passed over by the walk is in bounds and holds the
walked color. -/
theorem walkWhile_run (B : OthelloBoard) (opp : Nat) (mov : Tile) (d : Int × Int) :
    ∀ (fuel j i : Nat), j ≤ i →
      i < j + (walkWhile B opp (rayTile mov d j) d.1 d.2 fuel).2 →
      (rayTile mov d i).in_bounds = true ∧ B.get_tile (rayTile mov d i) = opp := by
  intro fuel
  induction fuel with
  | zero => intro j i _ h; simp [walkWhile] at h; omega
  | succ fuel ih =>
    intro j i hji hcount
    rw [walkWhile] at hcount
    split at hcount
    · rename_i hin
      split at hcount
      · dsimp only at hcount; omega
      · rename_i hopp
        push_neg at hopp
        rw [rayTile_step] at hcount
        dsimp only at hcount
        rcases eq_or_lt_of_le hji with rfl | hlt
        · exact ⟨hin, hopp⟩
        · exact ih (j + 1) i hlt (by omega)
    · dsimp only at hcount; omega

/-- With fuel to spare, the walk stops because the next tile leaves the
board or does not hold the walked color. -/
theorem walkWhile_stop (B : OthelloBoard) (opp : Nat) (mov : Tile) (d : Int × Int) :
    ∀ (fuel j : Nat),
      (walkWhile B opp (rayTile mov d j) d.1 d.2 fuel).2 < fuel →
      ¬((rayTile mov d (j + (walkWhile B opp (rayTile mov d j) d.1 d.2 fuel).2)).in_bounds
          = true ∧
        B.get_tile (rayTile mov d (j + (walkWhile B opp (rayTile mov d j) d.1 d.2 fuel).2))
          = opp) := by
  intro fuel
  induction fuel with
  | zero => intro j h; omega
  | succ fuel ih =>
    intro j hlt
    rw [walkWhile] at hlt ⊢
    by_cases hin : (rayTile mov d j).in_bounds = true
    · rw [if_pos hin] at hlt ⊢
      by_cases hne : B.get_tile (rayTile mov d j) ≠ opp
      · rw [if_pos hne] at hlt ⊢
        dsimp only at hlt ⊢
        intro hcontra
        exact hne hcontra.2
      · rw [if_neg hne] at hlt ⊢
        dsimp only at hlt ⊢
        rw [rayTile_step] at hlt ⊢
        have hres := ih (j + 1) (by omega)
        rw [show j + 1 + (walkWhile B opp (rayTile mov d (j + 1)) d.1 d.2 fuel).2 =
          j + ((walkWhile B opp (rayTile mov d (j + 1)) d.1 d.2 fuel).2 + 1) from by omega]
          at hres
        exact hres
    · rw [if_neg hin] at hlt ⊢
      dsimp only
      intro hcontra
      exact hin hcontra.1

/-- Facts about the maximal opposite-colored run along a ray of the
original board: its length is at most 7, all its cells are in bounds and
opposite-colored, and the cell just past it is not an in-bounds
opposite-colored cell. -/
theorem run_facts (b : OthelloBoard) (opp : Nat) (mov : Tile) (d : Int × Int)
    (hm : mov.in_bounds = true) (hd : d ∈ DIRECTIONS) :
    runLen b opp mov d ≤ 7 ∧
    (∀ i, 1 ≤ i → i ≤ runLen b opp mov d → (rayTile mov d i).in_bounds = true ∧
        b.get_tile (rayTile mov d i) = opp) ∧
    ¬((rayTile mov d (runLen b opp mov d + 1)).in_bounds = true ∧
        b.get_tile (rayTile mov d (runLen b opp mov d + 1)) = opp) := by
  have hrun : ∀ i, 1 ≤ i → i ≤ runLen b opp mov d →
      (rayTile mov d i).in_bounds = true ∧ b.get_tile (rayTile mov d i) = opp := by
    intro i h1 h2
    exact walkWhile_run b opp mov d 16 1 i h1 (by unfold runLen at h2; omega)
  have hle : runLen b opp mov d ≤ 7 := by
    rcases Nat.eq_zero_or_pos (runLen b opp mov d) with h | h
    · omega
    · have := (hrun (runLen b opp mov d) h le_rfl).1
      have := ray_inbounds_le mov d (runLen b opp mov d) hm hd this
      omega
  refine ⟨hle, hrun, ?_⟩
  have hstop := walkWhile_stop b opp mov d 16 1 (by unfold runLen at hle; omega)
  rw [show 1 + (walkWhile b opp (rayTile mov d 1) d.1 d.2 16).2 =
    (walkWhile b opp (rayTile mov d 1) d.1 d.2 16).2 + 1 from by omega] at hstop
  exact hstop

/-- `hasFlank` reads the stopping cell of the maximal run. -/
theorem hasFlank_eq (b : OthelloBoard) (cur opp : Nat) (mov : Tile) (d : Int × Int) :
    hasFlank b cur opp mov d =
      ((rayTile mov d (runLen b opp mov d + 1)).in_bounds &&
        decide (b.get_tile (rayTile mov d (runLen b opp mov d + 1)) = cur)) := by
  unfold hasFlank runLen
  dsimp only
  rw [walkWhile_tile b opp mov d 16 1]
  rw [show 1 + (walkWhile b opp (rayTile mov d 1) d.1 d.2 16).2 =
    (walkWhile b opp (rayTile mov d 1) d.1 d.2 16).2 + 1 from by omega]

/-- `findFlank` on any board whose ray agrees with a known maximal run
returns whether the stopping cell is an in-bounds cell of the mover's
color. -/
theorem findFlank_eq (B : OthelloBoard) (cur opp : Nat) (mov : Tile) (d : Int × Int)
    (hco : (cur = BLACK ∧ opp = WHITE) ∨ (cur = WHITE ∧ opp = BLACK))
    (hval : ∀ t : Tile, t.in_bounds = true → B.get_tile t ≠ 3) :
    ∀ (n fuel j : Nat), n < fuel →
      (∀ i, j ≤ i → i < j + n → (rayTile mov d i).in_bounds = true ∧
        B.get_tile (rayTile mov d i) = opp) →
      ¬((rayTile mov d (j + n)).in_bounds = true ∧
        B.get_tile (rayTile mov d (j + n)) = opp) →
      findFlank B cur (rayTile mov d j) d.1 d.2 fuel =
        ((rayTile mov d (j + n)).in_bounds &&
          decide (B.get_tile (rayTile mov d (j + n)) = cur)) := by
  intro n
  induction n with
  | zero =>
    intro fuel j hfuel hrunn hstop
    obtain ⟨f, rfl⟩ : ∃ f, fuel = f + 1 := ⟨fuel - 1, by omega⟩
    rw [findFlank]
    by_cases hin : (rayTile mov d j).in_bounds = true
    · rw [if_pos hin]
      rw [show j + 0 = j from rfl] at hstop ⊢
      by_cases hcur : B.get_tile (rayTile mov d j) = cur
      · rw [if_pos hcur, hin]
        simp [hcur]
      · rw [if_neg hcur]
        have hnopp : B.get_tile (rayTile mov d j) ≠ opp := fun h => hstop ⟨hin, h⟩
        have hn3 : B.get_tile (rayTile mov d j) ≠ 3 := hval _ hin
        have hlt4 : B.get_tile (rayTile mov d j) < 4 := get_tile_lt B _
        have hempty : B.get_tile (rayTile mov d j) = EMPTY := by
          have hBv : BLACK = 2 := rfl
          have hWv : WHITE = 1 := rfl
          have hEv : EMPTY = 0 := rfl
          rcases hco with ⟨hc, ho⟩ | ⟨hc, ho⟩ <;> omega
        rw [if_pos hempty, hin]
        simp [hcur]
    · rw [if_neg hin]
      rw [show j + 0 = j from rfl]
      simp [Bool.not_eq_true] at hin
      rw [hin]
      simp
  | succ m ih =>
    intro fuel j hfuel hrunn hstop
    obtain ⟨f, rfl⟩ : ∃ f, fuel = f + 1 := ⟨fuel - 1, by omega⟩
    have hj := hrunn j le_rfl (by omega)
    rw [findFlank, if_pos hj.1]
    have hBv : BLACK = 2 := rfl
    have hWv : WHITE = 1 := rfl
    have hEv : EMPTY = 0 := rfl
    have hnc : B.get_tile (rayTile mov d j) ≠ cur := by
      rw [hj.2]
      rcases hco with ⟨hc, ho⟩ | ⟨hc, ho⟩ <;> omega
    have hne : B.get_tile (rayTile mov d j) ≠ EMPTY := by
      rw [hj.2]
      rcases hco with ⟨hc, ho⟩ | ⟨hc, ho⟩ <;> omega
    rw [if_neg hnc, if_neg hne, rayTile_step]
    have hstop2 : ¬((rayTile mov d (j + 1 + m)).in_bounds = true ∧
        B.get_tile (rayTile mov d (j + 1 + m)) = opp) := by
      rw [show j + 1 + m = j + (m + 1) from by omega]
      exact hstop
    have hrun2 : ∀ i, j + 1 ≤ i → i < j + 1 + m →
        (rayTile mov d i).in_bounds = true ∧ B.get_tile (rayTile mov d i) = opp :=
      fun i h1 h2 => hrunn i (by omega) (by omega)
    have hres := ih f (j + 1) (by omega) hrun2 hstop2
    rw [show j + (m + 1) = j + 1 + m from by omega]
    exact hres

/-- `flipRun` over a known maximal run recolors exactly that run: every
run cell becomes the mover's color, every other in-bounds cell is
untouched, and the turn flag and 128-bit bound are preserved. -/
theorem flipRun_spec (cur opp : Nat) (mov : Tile) (d : Int × Int)
    (hd : d ∈ DIRECTIONS) (hcur : cur < 4) :
    ∀ (n fuel j : Nat) (B : OthelloBoard), n < fuel → B.board < 2 ^ 128 →
      (∀ i, j ≤ i → i < j + n → (rayTile mov d i).in_bounds = true ∧
        B.get_tile (rayTile mov d i) = opp) →
      ¬((rayTile mov d (j + n)).in_bounds = true ∧
        B.get_tile (rayTile mov d (j + n)) = opp) →
      (flipRun B cur opp (rayTile mov d j) d.1 d.2 fuel).black_move = B.black_move ∧
      (flipRun B cur opp (rayTile mov d j) d.1 d.2 fuel).board < 2 ^ 128 ∧
      (∀ i, j ≤ i → i < j + n →
        (flipRun B cur opp (rayTile mov d j) d.1 d.2 fuel).get_tile (rayTile mov d i)
          = cur) ∧
      (∀ t : Tile, t.in_bounds = true → (∀ i, j ≤ i → i < j + n → t ≠ rayTile mov d i) →
        (flipRun B cur opp (rayTile mov d j) d.1 d.2 fuel).get_tile t = B.get_tile t) := by
  intro n
  induction n with
  | zero =>
    intro fuel j B hfuel hbd hrunn hstop
    obtain ⟨f, rfl⟩ : ∃ f, fuel = f + 1 := ⟨fuel - 1, by omega⟩
    rw [flipRun]
    by_cases hin : (rayTile mov d j).in_bounds = true
    · rw [if_pos hin]
      have hnopp : B.get_tile (rayTile mov d j) ≠ opp := fun h => hstop ⟨hin, h⟩
      rw [if_pos hnopp]
      exact ⟨rfl, hbd, fun i h1 h2 => by omega, fun t _ _ => rfl⟩
    · rw [if_neg hin]
      exact ⟨rfl, hbd, fun i h1 h2 => by omega, fun t _ _ => rfl⟩
  | succ m ih =>
    intro fuel j B hfuel hbd hrunn hstop
    obtain ⟨f, rfl⟩ : ∃ f, fuel = f + 1 := ⟨fuel - 1, by omega⟩
    have hj := hrunn j le_rfl (by omega)
    rw [flipRun, if_pos hj.1, if_neg (by rw [hj.2]; exact fun h => h rfl), rayTile_step]
    set B' := B.set_tile (rayTile mov d j) cur with hB'
    have hbd' : B'.board < 2 ^ 128 := set_tile_lt B _ cur hbd hcur hj.1
    have hagree : ∀ t : Tile, t.in_bounds = true → t ≠ rayTile mov d j →
        B'.get_tile t = B.get_tile t :=
      fun t htb htn => get_set_ne B _ t cur hbd hcur hj.1 htb htn
    have hrun2 : ∀ i, j + 1 ≤ i → i < j + 1 + m →
        (rayTile mov d i).in_bounds = true ∧ B'.get_tile (rayTile mov d i) = opp := by
      intro i h1 h2
      have hi := hrunn i (by omega) (by omega)
      refine ⟨hi.1, ?_⟩
      rw [hagree _ hi.1 (fun h => by have := rayTile_inj mov d hd i j h; omega)]
      exact hi.2
    have hstop2 : ¬((rayTile mov d (j + 1 + m)).in_bounds = true ∧
        B'.get_tile (rayTile mov d (j + 1 + m)) = opp) := by
      intro hcon
      apply hstop
      rw [show j + (m + 1) = j + 1 + m from by omega]
      refine ⟨hcon.1, ?_⟩
      rw [← hagree _ hcon.1 (fun h => by have := rayTile_inj mov d hd (j + 1 + m) j h; omega)]
      exact hcon.2
    obtain ⟨ihblack, ihbd, ihflip, ihsame⟩ := ih f (j + 1) B' (by omega) hbd' hrun2 hstop2
    refine ⟨by rw [ihblack, hB']; rfl, ihbd, ?_, ?_⟩
    · intro i h1 h2
      rcases eq_or_lt_of_le h1 with heq | hlt
      · have hgoal : (flipRun B' cur opp (rayTile mov d (j + 1)) d.1 d.2 f).get_tile
            (rayTile mov d j) = cur := by
          rw [ihsame _ hj.1 (fun i' h1' h2' hne => by
            have := rayTile_inj mov d hd j i' hne; omega)]
          exact get_set_same B _ cur hbd hcur hj.1
        rw [← heq]
        exact hgoal
      · exact ihflip i hlt (by omega)
    · intro t htb havoid
      rw [ihsame t htb (fun i h1 h2 => havoid i (by omega) (by omega))]
      exact hagree t htb (havoid j le_rfl (by omega))

/-- Accumulator-membership principle for the conditional-append folds of
the move enumerator. -/
theorem mem_foldl_cond {β γ : Type} (P : γ → Prop)
    (f : List γ → β → List γ)
    (hstep : ∀ acc y x, x ∈ f acc y → x ∈ acc ∨ P x) :
    ∀ (l : List β) (acc : List γ) (x : γ), x ∈ l.foldl f acc → x ∈ acc ∨ P x := by
  intro l
  induction l with
  | nil => intro acc x h; exact Or.inl h
  | cons y rest ih =>
    intro acc x h
    rcases ih (f acc y) x h with h2 | h2
    · exact hstep acc y x h2
    · exact Or.inr h2

/-- Splitting membership in a conditional append. -/
theorem mem_ite_append {γ : Type} {c : Prop} [Decidable c] {acc : List γ} {e x : γ}
    (h : x ∈ if c then acc ++ [e] else acc) : x ∈ acc ∨ (c ∧ x = e) := by
  split at h
  · rename_i hc
    rcases List.mem_append.1 h with h2 | h2
    · exact Or.inl h2
    · exact Or.inr ⟨hc, by simpa using h2⟩
  · exact Or.inl h

/-- Every enumerated move is an in-bounds empty cell. -/
theorem mem_find_potential (b : OthelloBoard) (color : Nat) (mov : Tile)
    (h : mov ∈ b.find_potential_moves color) :
    mov.in_bounds = true ∧ b.get_tile mov = EMPTY := by
  unfold OthelloBoard.find_potential_moves at h
  have hres := mem_foldl_cond
    (fun x : Tile => x.in_bounds = true ∧ b.get_tile x = EMPTY) _ ?_ TILES [] mov h
  · rcases hres with h2 | h2
    · simp at h2
    · exact h2
  · intro acc y x hx
    dsimp only at hx
    split at hx
    · exact Or.inl hx
    · have hres2 := mem_foldl_cond
        (fun x : Tile => x.in_bounds = true ∧ b.get_tile x = EMPTY) _ ?_ DIRECTIONS acc x hx
      · exact hres2
      · intro acc2 dir x2 hx2
        rcases mem_ite_append hx2 with h3 | h3
        · exact Or.inl h3
        · obtain ⟨hcond, rfl⟩ := h3
          simp only [Bool.and_eq_true, decide_eq_true_eq] at hcond
          exact Or.inr ⟨hcond.1.2, hcond.2⟩

/-- Any in-bounds tile is one of the 64 indexed tiles. -/
theorem in_bounds_from_index (t : Tile) (ht : t.in_bounds = true) :
    ∃ i, i ∈ List.range 64 ∧ Tile.from_index i = t := by
  unfold Tile.in_bounds at ht
  simp only [Bool.and_eq_true, decide_eq_true_eq] at ht
  refine ⟨(t.row * 8 + t.col).toNat, ?_, ?_⟩
  · simp only [List.mem_range]
    omega
  · unfold Tile.from_index
    cases t
    simp only [Tile.mk.injEq]
    dsimp only at ht ⊢
    omega

/-- On a well-formed board no in-bounds cell reads as the unused
pattern 3. -/
theorem validBoard_get (b : OthelloBoard) (hv : validBoard b) (t : Tile)
    (ht : t.in_bounds = true) : b.get_tile t ≠ 3 := by
  obtain ⟨i, hi, rfl⟩ := in_bounds_from_index t ht
  exact hv.2 i hi

/-- Unfolding `flippedOn` membership. -/
theorem flippedOn_iff (ds : List (Int × Int)) (b : OthelloBoard) (mov t : Tile) :
    flippedOn ds b mov t = true ↔
      ∃ d ∈ ds, hasFlank b (if b.black_move then BLACK else WHITE)
          (if b.black_move then WHITE else BLACK) mov d = true ∧
        ∃ k, 1 ≤ k ∧ k ≤ runLen b (if b.black_move then WHITE else BLACK) mov d ∧
          t = rayTile mov d k := by
  unfold flippedOn
  simp only [List.any_eq_true, Bool.and_eq_true, decide_eq_true_eq, List.mem_range'_1]
  constructor
  · rintro ⟨d, hd, hf, k, ⟨hk1, hk2⟩, rfl⟩
    exact ⟨d, hd, hf, k, hk1, by omega, rfl⟩
  · rintro ⟨d, hd, hf, k, hk1, hk2, rfl⟩
    exact ⟨d, hd, hf, k, ⟨hk1, by omega⟩, rfl⟩

/-- Appending direction lists to `flippedOn` is disjunction. -/
theorem flippedOn_append (ds1 ds2 : List (Int × Int)) (b : OthelloBoard) (mov t : Tile) :
    flippedOn (ds1 ++ ds2) b mov t =
      (flippedOn ds1 b mov t || flippedOn ds2 b mov t) := by
  unfold flippedOn
  exact List.any_append

/-- One direction of `make_move`'s fold preserves the cell-level
invariant, extending the flipped set by that direction's flanked run. -/
theorem make_move_step (b : OthelloBoard) (mov : Tile) (pre : List (Int × Int))
    (d : Int × Int) (hd : d ∈ DIRECTIONS) (hdpre : d ∉ pre)
    (hpre : ∀ d' ∈ pre, d' ∈ DIRECTIONS)
    (hv : validBoard b) (hmi : mov.in_bounds = true)
    (bd : OthelloBoard)
    (hblack : bd.black_move = !b.black_move)
    (hbd : bd.board < 2 ^ 128)
    (hcells : ∀ t : Tile, t.in_bounds = true →
      bd.get_tile t = if t = mov then (if b.black_move then BLACK else WHITE)
        else if flippedOn pre b mov t = true then (if b.black_move then BLACK else WHITE)
        else b.get_tile t) :
    let cur := if b.black_move then BLACK else WHITE
    let opp := if b.black_move then WHITE else BLACK
    let bd' := if findFlank bd cur (Tile.new (mov.row + d.1) (mov.col + d.2)) d.1 d.2 16
      then flipRun bd cur opp (Tile.new (mov.row + d.1) (mov.col + d.2)) d.1 d.2 16
      else bd
    bd'.black_move = !b.black_move ∧ bd'.board < 2 ^ 128 ∧
    ∀ t : Tile, t.in_bounds = true →
      bd'.get_tile t = if t = mov then cur
        else if flippedOn (pre ++ [d]) b mov t = true then cur
        else b.get_tile t := by
  intro cur opp
  have hco : (cur = BLACK ∧ opp = WHITE) ∨ (cur = WHITE ∧ opp = BLACK) := by
    unfold_let cur opp
    cases b.black_move
    · exact Or.inr ⟨rfl, rfl⟩
    · exact Or.inl ⟨rfl, rfl⟩
  have hcur4 : cur < 4 := by rcases hco with ⟨h, _⟩ | ⟨h, _⟩ <;> rw [h] <;> decide
  have hrayagree : ∀ k, 1 ≤ k → (rayTile mov d k).in_bounds = true →
      bd.get_tile (rayTile mov d k) = b.get_tile (rayTile mov d k) := by
    intro k hk hin
    rw [hcells _ hin]
    rw [if_neg (rayTile_ne_mov mov d hd k hk)]
    have hnotflip : flippedOn pre b mov (rayTile mov d k) ≠ true := by
      intro hflip
      obtain ⟨d', hd', _, k', hk1', _, heq⟩ := (flippedOn_iff pre b mov _).1 hflip
      exact rayTile_disjoint mov d d' hd (hpre d' hd')
        (fun h => hdpre (h ▸ hd')) k k' hk hk1' heq
    rw [if_neg hnotflip]
  set n := runLen b opp mov d with hn
  obtain ⟨hn7, hrun, hstop⟩ := run_facts b opp mov d hmi hd
  rw [← hn] at hn7 hrun hstop
  have hrunbd : ∀ i, 1 ≤ i → i < 1 + n → (rayTile mov d i).in_bounds = true ∧
      bd.get_tile (rayTile mov d i) = opp := by
    intro i h1 h2
    have hi := hrun i h1 (by omega)
    exact ⟨hi.1, by rw [hrayagree i h1 hi.1]; exact hi.2⟩
  have hstopbd : ¬((rayTile mov d (1 + n)).in_bounds = true ∧
      bd.get_tile (rayTile mov d (1 + n)) = opp) := by
    intro hcon
    apply hstop
    rw [show n + 1 = 1 + n from by omega]
    exact ⟨hcon.1, by rw [← hrayagree (1 + n) (by omega) hcon.1]; exact hcon.2⟩
  have hval : ∀ t : Tile, t.in_bounds = true → bd.get_tile t ≠ 3 := by
    intro t ht
    rw [hcells t ht]
    have hb3 := validBoard_get b hv t ht
    have hc3 : cur ≠ 3 := by rcases hco with ⟨h, _⟩ | ⟨h, _⟩ <;> rw [h] <;> decide
    split
    · exact hc3
    · split
      · exact hc3
      · exact hb3
  have hff : findFlank bd cur (Tile.new (mov.row + d.1) (mov.col + d.2)) d.1 d.2 16 =
      hasFlank b cur opp mov d := by
    rw [rayTile_one]
    rw [findFlank_eq bd cur opp mov d hco hval n 16 1 (by omega) hrunbd hstopbd]
    rw [hasFlank_eq b cur opp mov d, ← hn]
    rw [show 1 + n = n + 1 from by omega]
    by_cases hin : (rayTile mov d (n + 1)).in_bounds = true
    · rw [hrayagree (n + 1) (by omega) hin]
    · simp only [Bool.not_eq_true] at hin
      rw [hin]
      simp
  by_cases hflank : hasFlank b cur opp mov d = true
  · rw [show (if findFlank bd cur (Tile.new (mov.row + d.1) (mov.col + d.2)) d.1 d.2 16
      then flipRun bd cur opp (Tile.new (mov.row + d.1) (mov.col + d.2)) d.1 d.2 16
      else bd) = flipRun bd cur opp (Tile.new (mov.row + d.1) (mov.col + d.2)) d.1 d.2 16
      from by rw [hff, hflank]; simp]
    rw [rayTile_one]
    obtain ⟨hfb, hfbd, hflip, hsame⟩ :=
      flipRun_spec cur opp mov d hd hcur4 n 16 1 bd (by omega) hbd hrunbd hstopbd
    refine ⟨by rw [hfb]; exact hblack, hfbd, ?_⟩
    intro t ht
    by_cases hmov : t = mov
    · rw [if_pos hmov, hmov]
      rw [hsame mov hmi (fun i h1 h2 heq => rayTile_ne_mov mov d hd i h1 heq.symm)]
      rw [hcells mov hmi, if_pos rfl]
    · rw [if_neg hmov]
      by_cases hray : ∃ k, 1 ≤ k ∧ k ≤ n ∧ t = rayTile mov d k
      · obtain ⟨k, hk1, hk2, rfl⟩ := hray
        rw [hflip k hk1 (by omega)]
        have : flippedOn (pre ++ [d]) b mov (rayTile mov d k) = true := by
          rw [flippedOn_append]
          refine Bool.or_eq_true_iff.2 (Or.inr ?_)
          rw [flippedOn_iff]
          exact ⟨d, by simp, hflank, k, hk1, hk2, rfl⟩
        rw [this]
        simp
      · push_neg at hray
        rw [hsame t ht (fun i h1 h2 heq => hray i h1 (by omega) heq)]
        rw [hcells t ht, if_neg hmov]
        have hsplit : flippedOn (pre ++ [d]) b mov t = flippedOn pre b mov t := by
          rw [flippedOn_append]
          have hd0 : flippedOn [d] b mov t = false := by
            rw [← Bool.not_eq_true]
            intro hcon
            obtain ⟨d', hd', _, k, hk1, hk2, heq⟩ := (flippedOn_iff [d] b mov t).1 hcon
            simp only [List.mem_singleton] at hd'
            subst hd'
            exact hray k hk1 hk2 heq
          rw [hd0, Bool.or_false]
        rw [hsplit]
  · rw [show (if findFlank bd cur (Tile.new (mov.row + d.1) (mov.col + d.2)) d.1 d.2 16
      then flipRun bd cur opp (Tile.new (mov.row + d.1) (mov.col + d.2)) d.1 d.2 16
      else bd) = bd from by
        rw [hff]
        simp only [Bool.not_eq_true] at hflank
        rw [hflank]
        simp]
    refine ⟨hblack, hbd, ?_⟩
    intro t ht
    rw [hcells t ht]
    have hsplit : flippedOn (pre ++ [d]) b mov t = flippedOn pre b mov t := by
      rw [flippedOn_append]
      have hd0 : flippedOn [d] b mov t = false := by
        rw [← Bool.not_eq_true]
        intro hcon
        obtain ⟨d', hd', hf, _⟩ := (flippedOn_iff [d] b mov t).1 hcon
        simp only [List.mem_singleton] at hd'
        subst hd'
        exact hflank hf
      rw [hd0, Bool.or_false]
    rw [hsplit]

/-- `make_move` unfolded: place the disc on the turn-flipped copy, then
fold the 8 directions through detect-and-flip. -/
theorem make_move_eq (b : OthelloBoard) (mov : Tile) :
    b.make_move mov = DIRECTIONS.foldl (fun bd direction =>
      if findFlank bd (if b.black_move then BLACK else WHITE)
          (Tile.new (mov.row + direction.1) (mov.col + direction.2))
          direction.1 direction.2 16
      then flipRun bd (if b.black_move then BLACK else WHITE)
          (if b.black_move then WHITE else BLACK)
          (Tile.new (mov.row + direction.1) (mov.col + direction.2))
          direction.1 direction.2 16
      else bd)
      (OthelloBoard.set_tile { b with black_move := !b.black_move } mov
        (if b.black_move then BLACK else WHITE)) := rfl

/-- The direction fold of `make_move` preserves the cell-level invariant
over any suffix of the direction list. -/
theorem make_move_fold (b : OthelloBoard) (mov : Tile)
    (hv : validBoard b) (hmi : mov.in_bounds = true) :
    ∀ (rest pre : List (Int × Int)), pre ++ rest = DIRECTIONS →
    ∀ bd : OthelloBoard,
      bd.black_move = !b.black_move → bd.board < 2 ^ 128 →
      (∀ t : Tile, t.in_bounds = true →
        bd.get_tile t = if t = mov then (if b.black_move then BLACK else WHITE)
          else if flippedOn pre b mov t = true then (if b.black_move then BLACK else WHITE)
          else b.get_tile t) →
      (rest.foldl (fun bd direction =>
        if findFlank bd (if b.black_move then BLACK else WHITE)
            (Tile.new (mov.row + direction.1) (mov.col + direction.2))
            direction.1 direction.2 16
        then flipRun bd (if b.black_move then BLACK else WHITE)
            (if b.black_move then WHITE else BLACK)
            (Tile.new (mov.row + direction.1) (mov.col + direction.2))
            direction.1 direction.2 16
        else bd) bd).black_move = !b.black_move ∧
      (rest.foldl (fun bd direction =>
        if findFlank bd (if b.black_move then BLACK else WHITE)
            (Tile.new (mov.row + direction.1) (mov.col + direction.2))
            direction.1 direction.2 16
        then flipRun bd (if b.black_move then BLACK else WHITE)
            (if b.black_move then WHITE else BLACK)
            (Tile.new (mov.row + direction.1) (mov.col + direction.2))
            direction.1 direction.2 16
        else bd) bd).board < 2 ^ 128 ∧
      ∀ t : Tile, t.in_bounds = true →
        (rest.foldl (fun bd direction =>
          if findFlank bd (if b.black_move then BLACK else WHITE)
              (Tile.new (mov.row + direction.1) (mov.col + direction.2))
              direction.1 direction.2 16
          then flipRun bd (if b.black_move then BLACK else WHITE)
              (if b.black_move then WHITE else BLACK)
              (Tile.new (mov.row + direction.1) (mov.col + direction.2))
              direction.1 direction.2 16
          else bd) bd).get_tile t =
          if t = mov then (if b.black_move then BLACK else WHITE)
          else if flippedOn (pre ++ rest) b mov t = true then
            (if b.black_move then BLACK else WHITE)
          else b.get_tile t := by
  intro rest
  induction rest with
  | nil =>
    intro pre hsplit bd hblack hbd hcells
    rw [List.append_nil]
    exact ⟨hblack, hbd, hcells⟩
  | cons d rest' ih =>
    intro pre hsplit bd hblack hbd hcells
    have hd : d ∈ DIRECTIONS := by
      rw [← hsplit]
      exact List.mem_append.2 (Or.inr (List.mem_cons_self d rest'))
    have hnodup : (pre ++ d :: rest').Nodup := by
      rw [hsplit]
      decide
    have hdpre : d ∉ pre := by
      have hdisj := (List.nodup_append.1 hnodup).2.2
      intro hmem
      exact hdisj hmem (List.mem_cons_self d rest')
    have hpre : ∀ d' ∈ pre, d' ∈ DIRECTIONS := by
      intro d' hd'
      rw [← hsplit]
      exact List.mem_append.2 (Or.inl hd')
    obtain ⟨hb1, hb2, hb3⟩ :=
      make_move_step b mov pre d hd hdpre hpre hv hmi bd hblack hbd hcells
    rw [List.foldl_cons]
    have hsplit' : (pre ++ [d]) ++ rest' = DIRECTIONS := by
      rw [List.append_assoc, List.singleton_append]
      exact hsplit
    have hres := ih (pre ++ [d]) hsplit' _ hb1 hb2 hb3
    rw [show pre ++ d :: rest' = (pre ++ [d]) ++ rest' from by
      rw [List.append_assoc, List.singleton_append]]
    exact hres

/-- C7: applying a legal move of the side to move yields a new position
(the model is pure, so the argument itself is untouched by value
semantics) in which the target cell holds the mover's color, the turn
flag is flipped, and every other in-bounds cell is recolored to the
mover's color exactly when it lies strictly inside a flanked run: the
maximal contiguous run of opposite-colored cells from the move in some
direction ending, in bounds, on the mover's own color.  Directions whose
run reaches an empty cell or the edge flip nothing; flipped runs consist
of opposite-colored cells and terminate on the mover's color. -/
theorem claim_C7 (b : OthelloBoard) (mov : Tile) (hv : validBoard b)
    (hm : mov ∈ b.find_current_moves_as_vec) :
    ((b.make_move mov).black_move = !b.black_move) ∧
    (b.make_move mov).get_tile mov = (if b.black_move then BLACK else WHITE) ∧
    (∀ t : Tile, t.in_bounds = true → t ≠ mov →
      (b.make_move mov).get_tile t =
        if flippedTile b mov t = true then (if b.black_move then BLACK else WHITE)
        else b.get_tile t) ∧
    (∀ d ∈ DIRECTIONS,
      (∀ i, 1 ≤ i → i ≤ runLen b (if b.black_move then WHITE else BLACK) mov d →
        (rayTile mov d i).in_bounds = true ∧
        b.get_tile (rayTile mov d i) = (if b.black_move then WHITE else BLACK)) ∧
      (hasFlank b (if b.black_move then BLACK else WHITE)
          (if b.black_move then WHITE else BLACK) mov d = true →
        (rayTile mov d
            (runLen b (if b.black_move then WHITE else BLACK) mov d + 1)).in_bounds
          = true ∧
        b.get_tile (rayTile mov d
            (runLen b (if b.black_move then WHITE else BLACK) mov d + 1)) =
          (if b.black_move then BLACK else WHITE))) := by
  obtain ⟨hmi, hme⟩ := mem_find_potential b _ mov hm
  have hcur4 : (if b.black_move then BLACK else WHITE) < 4 := by
    cases b.black_move <;> decide
  have hb1black : (OthelloBoard.set_tile { b with black_move := !b.black_move } mov
      (if b.black_move then BLACK else WHITE)).black_move = !b.black_move := rfl
  have hb1bd : (OthelloBoard.set_tile { b with black_move := !b.black_move } mov
      (if b.black_move then BLACK else WHITE)).board < 2 ^ 128 :=
    set_tile_lt _ mov _ hv.1 hcur4 hmi
  have hb1cells : ∀ t : Tile, t.in_bounds = true →
      (OthelloBoard.set_tile { b with black_move := !b.black_move } mov
        (if b.black_move then BLACK else WHITE)).get_tile t =
      if t = mov then (if b.black_move then BLACK else WHITE)
      else if flippedOn [] b mov t = true then (if b.black_move then BLACK else WHITE)
      else b.get_tile t := by
    intro t ht
    by_cases hmov : t = mov
    · rw [if_pos hmov, hmov]
      exact get_set_same _ mov _ hv.1 hcur4 hmi
    · rw [if_neg hmov]
      rw [show flippedOn [] b mov t = false from rfl]
      simp only [Bool.false_eq_true, if_false]
      exact get_set_ne _ mov t _ hv.1 hcur4 hmi ht hmov
  obtain ⟨hfb, hfbd, hfcells⟩ := make_move_fold b mov hv hmi DIRECTIONS []
    (List.nil_append DIRECTIONS) _ hb1black hb1bd hb1cells
  rw [← make_move_eq] at hfb hfbd hfcells
  refine ⟨hfb, ?_, ?_, ?_⟩
  · rw [hfcells mov hmi, if_pos rfl]
  · intro t ht htm
    rw [hfcells t ht, if_neg htm, flippedTile_eq]
    rw [show ([] : List (Int × Int)) ++ DIRECTIONS = DIRECTIONS from
      List.nil_append DIRECTIONS]
  · intro d hd
    obtain ⟨hn7, hrun, hstop⟩ :=
      run_facts b (if b.black_move then WHITE else BLACK) mov d hmi hd
    refine ⟨hrun, ?_⟩
    intro hflank
    rw [hasFlank_eq] at hflank
    simp only [Bool.and_eq_true, decide_eq_true_eq] at hflank
    exact hflank

/-- C7 witness: the opening move d3 on the initial position. -/
theorem claim_C7_witness :
    validBoard OthelloBoard.new ∧
    Tile.new 2 3 ∈ OthelloBoard.new.find_current_moves_as_vec ∧
    (OthelloBoard.new.make_move (Tile.new 2 3)).black_move =
      !OthelloBoard.new.black_move :=
  ⟨by decide, by decide,
   (claim_C7 OthelloBoard.new (Tile.new 2 3) (by decide) (by decide)).1⟩

/-- The flush of `to_notation` only appends to its accumulator. -/
theorem flushRun_append (acc : List Char) (count : Nat) (sym : Char) :
    flushRun acc count sym = acc ++ flushRun [] count sym := by
  unfold flushRun
  dsimp only
  split <;> split <;> simp

/-- Flushing an empty run emits nothing. -/
theorem flushRun_zero (acc : List Char) (sym : Char) :
    flushRun acc 0 sym = acc := rfl

/-- Flushing a run of one emits just the symbol. -/
theorem flushRun_one (acc : List Char) (sym : Char) :
    flushRun acc 1 sym = acc ++ [sym] := rfl

/-- One encoder step on a tile before the last column. -/
theorem encStep_mid (b : OthelloBoard) (acc : List Char) (count : Nat)
    (sym : Char) (t : Tile) (h : ¬(t.col = 7)) :
    encStep b (acc, count, sym) t =
      if b.get_symbol t ≠ sym then (flushRun acc count sym, 1, b.get_symbol t)
      else (acc, count + 1, sym) := by
  unfold encStep
  dsimp only
  rw [if_neg h]

/-- One encoder step on a last-column tile. -/
theorem encStep_last (b : OthelloBoard) (acc : List Char) (count : Nat)
    (sym : Char) (t : Tile) (h : t.col = 7) :
    encStep b (acc, count, sym) t =
      if b.get_symbol t ≠ sym then
        (flushRun acc count sym ++ [b.get_symbol t] ++ ['/'], 0, b.get_symbol t)
      else (flushRun acc (count + 1) sym ++ ['/'], 0, b.get_symbol t) := by
  unfold encStep
  dsimp only
  rw [if_pos h]
  by_cases h2 : b.get_symbol t ≠ sym
  · rw [if_pos h2, if_pos h2]
    dsimp only
    rw [flushRun_one]
  · rw [if_neg h2, if_neg h2]

/-- Entering a row with an empty pending run: the first tile always
starts a fresh run of one, whatever the previous symbol was. -/
theorem row_enter (b : OthelloBoard) (acc : List Char) (prev : Char)
    (t : Tile) (h : ¬(t.col = 7)) :
    encStep b (acc, 0, prev) t = (acc, 1, b.get_symbol t) := by
  rw [encStep_mid b acc 0 prev t h]
  by_cases h2 : b.get_symbol t ≠ prev
  · rw [if_pos h2, flushRun_zero]
  · rw [if_neg h2]
    simp only [ne_eq, not_not] at h2
    rw [h2]

/-- The encoder's fold over the remainder of a row (tiles before the
last column, then the last-column tile) emits exactly the run-length
encoding of the row's symbols and resets the state for the next row. -/
theorem row_fold (b : OthelloBoard) :
    ∀ (ts : List Tile) (tl : Tile), (∀ t ∈ ts, ¬(t.col = 7)) → tl.col = 7 →
    ∀ (acc : List Char) (count : Nat) (sym : Char),
    List.foldl (encStep b) (acc, count, sym) (ts ++ [tl]) =
      (acc ++ encRun sym count (ts.map b.get_symbol ++ [b.get_symbol tl]) ++ ['/'],
        0, b.get_symbol tl) := by
  intro ts
  induction ts with
  | nil =>
    intro tl hmid hl acc count sym
    rw [List.nil_append, List.foldl_cons, List.foldl_nil,
      encStep_last b acc count sym tl hl]
    simp only [List.map_nil, List.nil_append]
    by_cases h2 : b.get_symbol tl ≠ sym
    · rw [if_pos h2]
      simp only [encRun]
      rw [if_pos h2]
      rw [flushRun_one, flushRun_append]
      simp [List.append_assoc]
    · rw [if_neg h2]
      simp only [encRun]
      rw [if_neg h2]
      rw [flushRun_append acc]
  | cons t ts ih =>
    intro tl hmid hl acc count sym
    rw [List.cons_append, List.foldl_cons,
      encStep_mid b acc count sym t (hmid t (List.mem_cons_self t ts))]
    have ihm : ∀ u ∈ ts, ¬(u.col = 7) := fun u hu => hmid u (List.mem_cons_of_mem t hu)
    by_cases h2 : b.get_symbol t ≠ sym
    · rw [if_pos h2, ih tl ihm hl]
      simp only [List.map_cons, List.cons_append, encRun]
      rw [if_pos h2, flushRun_append]
      simp [List.append_assoc]
    · rw [if_neg h2, ih tl ihm hl]
      simp only [List.map_cons, List.cons_append, encRun]
      rw [if_neg h2]
      simp [List.append_eq]

/-- The encoder only emits the three cell symbols. -/
theorem get_symbol_valid (b : OthelloBoard) (t : Tile) : validSym (b.get_symbol t) := by
  unfold OthelloBoard.get_symbol validSym
  have h4 := get_tile_lt b t
  have h3 : b.get_tile t = 0 ∨ b.get_tile t = 1 ∨ b.get_tile t = 2 ∨
      b.get_tile t = 3 := by omega
  rcases h3 with h3 | h3 | h3 | h3 <;> rw [h3] <;> decide

/-- Symbol values are two-bit cell values. -/
theorem symVal_lt (c : Char) : symVal c < 4 := by
  unfold symVal
  split <;> decide

/-- Decoding the symbol of a cell that is not the unused pattern 3
recovers the cell's value. -/
theorem symVal_get_symbol (b : OthelloBoard) (t : Tile) (h : b.get_tile t ≠ 3) :
    symVal (b.get_symbol t) = b.get_tile t := by
  have h4 := get_tile_lt b t
  have h3 : b.get_tile t = 0 ∨ b.get_tile t = 1 ∨ b.get_tile t = 2 := by omega
  unfold OthelloBoard.get_symbol
  rcases h3 with h3 | h3 | h3 <;> rw [h3] <;> rfl

/-- How the parser treats a recognized cell symbol: it is not the row
separator, not a digit, and `set_symbol` accepts it, writing its value. -/
theorem parse_sym_facts (c : Char) (h : validSym c) :
    ¬(c = '/') ∧ charToDigit10 c = none ∧
      ∀ (b : OthelloBoard) (t : Tile),
        OthelloBoard.set_symbol b t c = Except.ok (b.set_tile t (symVal c)) := by
  rcases h with rfl | rfl | rfl
  · exact ⟨by decide, by decide, fun b t => rfl⟩
  · exact ⟨by decide, by decide, fun b t => rfl⟩
  · exact ⟨by decide, by decide, fun b t => rfl⟩

/-- The inner write loop of the parser writes a run of one symbol into
consecutive columns. -/
theorem writeRun_eq (c : Char) (hc : validSym c) :
    ∀ (n : Nat) (b : OthelloBoard) (row col : Int),
    fromNotationAux.writeRun b row col n c =
      Except.ok (writeSyms b row col (List.replicate n c), col + n) := by
  intro n
  induction n with
  | zero =>
    intro b row col
    simp [fromNotationAux.writeRun, writeSyms]
  | succ n ih =>
    intro b row col
    obtain ⟨-, -, hset⟩ := parse_sym_facts c hc
    have hstep : fromNotationAux.writeRun b row col (n + 1) c =
        fromNotationAux.writeRun (b.set_tile (Tile.new row col) (symVal c)) row
          (col + 1) n c := by
      simp only [fromNotationAux.writeRun]
      rw [hset b (Tile.new row col)]
    rw [hstep, ih]
    have h1 : writeSyms b row col (List.replicate (n + 1) c) =
        writeSyms (b.set_tile (Tile.new row col) (symVal c)) row (col + 1)
          (List.replicate n c) := by
      rw [List.replicate_succ]
      rfl
    have h2 : col + 1 + (n : Int) = col + ((n + 1 : Nat) : Int) := by push_cast; ring
    rw [h1, h2]

/-- Parsing one symbol character: the pending count is written out as a
run and the count resets to one. -/
theorem parse_symchar (b : OthelloBoard) (row col : Int) (n : Nat) (sym : Char)
    (rest : List Char) (hrow : row ≤ 7) (hguard : ¬((n : Int) + col > 8))
    (hsym : validSym sym) :
    fromNotationAux b row col (n : Int) (sym :: rest) =
      fromNotationAux (writeSyms b row col (List.replicate n sym)) row
        (col + n) 1 rest := by
  obtain ⟨hslash, hdig, -⟩ := parse_sym_facts sym hsym
  simp only [fromNotationAux]
  rw [if_neg (show ¬(row > 7) by omega), if_neg hslash, hdig,
    if_neg hguard, Int.toNat_natCast, writeRun_eq sym hsym n b row col]

/-- Parsing the flush of a pending run `(count, sym)`: the emitted digit
(when the count is above one) and symbol write the run back. -/
theorem parse_flush (b : OthelloBoard) (row col : Int) (count : Nat) (sym : Char)
    (rest : List Char) (hrow : row ≤ 7) (hcol : 0 ≤ col) (hcnt : 1 ≤ count)
    (hc8 : (count : Int) + col ≤ 8) (hsym : validSym sym) :
    fromNotationAux b row col 1 (flushRun [] count sym ++ rest) =
      fromNotationAux (writeSyms b row col (List.replicate count sym)) row
        (col + count) 1 rest := by
  have hle : count ≤ 8 := by omega
  interval_cases count
  · exact parse_symchar b row col 1 sym rest hrow (by omega) hsym
  · rw [show flushRun [] 2 sym ++ rest = '2' :: sym :: rest from rfl]
    simp only [fromNotationAux]
    rw [if_neg (show ¬(row > 7) by omega), if_neg (show ¬('2' = '/') by decide),
      show charToDigit10 '2' = some 2 from rfl]
    exact parse_symchar b row col 2 sym rest hrow (by omega) hsym
  · rw [show flushRun [] 3 sym ++ rest = '3' :: sym :: rest from rfl]
    simp only [fromNotationAux]
    rw [if_neg (show ¬(row > 7) by omega), if_neg (show ¬('3' = '/') by decide),
      show charToDigit10 '3' = some 3 from rfl]
    exact parse_symchar b row col 3 sym rest hrow (by omega) hsym
  · rw [show flushRun [] 4 sym ++ rest = '4' :: sym :: rest from rfl]
    simp only [fromNotationAux]
    rw [if_neg (show ¬(row > 7) by omega), if_neg (show ¬('4' = '/') by decide),
      show charToDigit10 '4' = some 4 from rfl]
    exact parse_symchar b row col 4 sym rest hrow (by omega) hsym
  · rw [show flushRun [] 5 sym ++ rest = '5' :: sym :: rest from rfl]
    simp only [fromNotationAux]
    rw [if_neg (show ¬(row > 7) by omega), if_neg (show ¬('5' = '/') by decide),
      show charToDigit10 '5' = some 5 from rfl]
    exact parse_symchar b row col 5 sym rest hrow (by omega) hsym
  · rw [show flushRun [] 6 sym ++ rest = '6' :: sym :: rest from rfl]
    simp only [fromNotationAux]
    rw [if_neg (show ¬(row > 7) by omega), if_neg (show ¬('6' = '/') by decide),
      show charToDigit10 '6' = some 6 from rfl]
    exact parse_symchar b row col 6 sym rest hrow (by omega) hsym
  · rw [show flushRun [] 7 sym ++ rest = '7' :: sym :: rest from rfl]
    simp only [fromNotationAux]
    rw [if_neg (show ¬(row > 7) by omega), if_neg (show ¬('7' = '/') by decide),
      show charToDigit10 '7' = some 7 from rfl]
    exact parse_symchar b row col 7 sym rest hrow (by omega) hsym
  · rw [show flushRun [] 8 sym ++ rest = '8' :: sym :: rest from rfl]
    simp only [fromNotationAux]
    rw [if_neg (show ¬(row > 7) by omega), if_neg (show ¬('8' = '/') by decide),
      show charToDigit10 '8' = some 8 from rfl]
    exact parse_symchar b row col 8 sym rest hrow (by omega) hsym

/-- Consecutive symbol writes into one row compose by column offset. -/
theorem writeSyms_append : ∀ (l1 l2 : List Char) (b : OthelloBoard) (row col : Int),
    writeSyms (writeSyms b row col l1) row (col + l1.length) l2 =
      writeSyms b row col (l1 ++ l2) := by
  intro l1
  induction l1 with
  | nil =>
    intro l2 b row col
    simp [writeSyms]
  | cons c l1 ih =>
    intro l2 b row col
    rw [show writeSyms b row col (c :: l1) =
      writeSyms (b.set_tile (Tile.new row col) (symVal c)) row (col + 1) l1 from rfl]
    rw [show (c :: l1) ++ l2 = c :: (l1 ++ l2) from rfl]
    rw [show writeSyms b row col (c :: (l1 ++ l2)) =
      writeSyms (b.set_tile (Tile.new row col) (symVal c)) row (col + 1)
        (l1 ++ l2) from rfl]
    rw [show col + ((c :: l1).length : Int) = (col + 1) + (l1.length : Int) from by
      push_cast [List.length_cons]; ring]
    exact ih l2 _ row (col + 1)

/-- Parsing the full run-length encoding of the rest of a row writes the
encoded symbols back into their cells and leaves the parser at column 8
with a reset count. -/
theorem parse_encRun :
    ∀ (syms : List Char) (sym : Char) (count : Nat) (b : OthelloBoard)
      (col : Int) (rest : List Char) (row : Int),
    row ≤ 7 → 0 ≤ col → 1 ≤ count → (count : Int) + col + syms.length = 8 →
    validSym sym → (∀ c ∈ syms, validSym c) →
    fromNotationAux b row col 1 (encRun sym count syms ++ rest) =
      fromNotationAux (writeSyms b row col (List.replicate count sym ++ syms))
        row 8 1 rest := by
  intro syms
  induction syms with
  | nil =>
    intro sym count b col rest row hrow hcol hcnt hlen hsym _
    rw [show encRun sym count [] = flushRun [] count sym from rfl]
    have hlen' : (count : Int) + col = 8 := by
      simp only [List.length_nil, Nat.cast_zero, add_zero] at hlen
      omega
    rw [parse_flush b row col count sym rest hrow hcol hcnt (by omega) hsym]
    rw [show col + (count : Int) = 8 from by omega, List.append_nil]
  | cons c cs ih =>
    intro sym count b col rest row hrow hcol hcnt hlen hsym hsyms
    have hc : validSym c := hsyms c (List.mem_cons_self c cs)
    have hcs : ∀ u ∈ cs, validSym u := fun u hu => hsyms u (List.mem_cons_of_mem c hu)
    have hlen' : (count : Int) + col + ((cs.length : Int) + 1) = 8 := by
      push_cast [List.length_cons] at hlen
      omega
    by_cases h2 : c ≠ sym
    · rw [show encRun sym count (c :: cs) = flushRun [] count sym ++ encRun c 1 cs from by
        simp only [encRun]; rw [if_pos h2]]
      rw [List.append_assoc]
      rw [parse_flush b row col count sym (encRun c 1 cs ++ rest) hrow hcol hcnt
        (by omega) hsym]
      rw [ih c 1 _ (col + count) rest row hrow (by omega) le_rfl
        (by push_cast; omega) hc hcs]
      have hcomp : writeSyms (writeSyms b row col (List.replicate count sym)) row
          (col + (count : Int)) (List.replicate 1 c ++ cs) =
          writeSyms b row col (List.replicate count sym ++ (c :: cs)) := by
        rw [show col + (count : Int) =
          col + ((List.replicate count sym).length : Int) from by simp]
        rw [writeSyms_append]
        simp
      rw [hcomp]
    · simp only [ne_eq, not_not] at h2
      rw [show encRun sym count (c :: cs) = encRun sym (count + 1) cs from by
        simp only [encRun]; rw [if_neg (by simp [h2])]]
      rw [ih sym (count + 1) b col rest row hrow hcol (by omega)
        (by push_cast; omega) hsym hcs]
      have hrep : List.replicate (count + 1) sym ++ cs =
          List.replicate count sym ++ (c :: cs) := by
        rw [h2, List.replicate_succ', List.append_assoc]
        rfl
      rw [hrep]

/-- Parsing the row separator advances to the next row. -/
theorem parse_slash (b : OthelloBoard) (row col count : Int) (rest : List Char)
    (hrow : row ≤ 7) :
    fromNotationAux b row col count ('/' :: rest) =
      fromNotationAux b (row + 1) 0 count rest := by
  simp only [fromNotationAux]
  rw [if_neg (show ¬(row > 7) by omega)]
  simp

/-- An explicitly-bounded coordinate pair is an in-bounds tile. -/
theorem tile_new_in_bounds (row col : Int) (h1 : 0 ≤ row) (h2 : row ≤ 7)
    (h3 : 0 ≤ col) (h4 : col ≤ 7) : (Tile.new row col).in_bounds = true := by
  unfold Tile.new Tile.in_bounds
  simp only [Bool.and_eq_true, decide_eq_true_eq]
  omega

/-- Every index below 64 denotes an in-bounds tile. -/
theorem from_index_in_bounds (i : Nat) (h : i < 64) :
    (Tile.from_index i).in_bounds = true := by
  unfold Tile.from_index Tile.in_bounds
  simp only [Bool.and_eq_true, decide_eq_true_eq]
  omega

/-- The shift of the `i`-th tile is the `i`-th two-bit field. -/
theorem tileShift_from_index (i : Nat) (h : i < 64) :
    tileShift (Tile.from_index i) = 2 * i := by
  unfold tileShift Tile.from_index
  dsimp only
  omega

/-- A number below `4^n` is determined by its `n` base-4 digits. -/
theorem nat_digit_ext : ∀ (n : Nat) (a b : Nat), a < 4 ^ n → b < 4 ^ n →
    (∀ i, i < n → a / 4 ^ i % 4 = b / 4 ^ i % 4) → a = b := by
  intro n
  induction n with
  | zero =>
    intro a b ha hb _
    simp only [pow_zero] at ha hb
    omega
  | succ n ih =>
    intro a b ha hb h
    have h0 := h 0 (by omega)
    simp only [pow_zero, Nat.div_one] at h0
    rw [pow_succ] at ha hb
    have hdig : ∀ i, i < n → a / 4 / 4 ^ i % 4 = b / 4 / 4 ^ i % 4 := by
      intro i hi
      have hstep := h (i + 1) (by omega)
      have he : (4 : Nat) * 4 ^ i = 4 ^ (i + 1) := by rw [pow_succ]; ring
      rw [Nat.div_div_eq_div_mul, Nat.div_div_eq_div_mul, he]
      exact hstep
    have := ih (a / 4) (b / 4) (by omega) (by omega) hdig
    omega

/-- Two well-formed packed boards agreeing on every in-bounds cell are
the same packed value. -/
theorem board_ext (x y : OthelloBoard) (hx : x.board < 2 ^ 128)
    (hy : y.board < 2 ^ 128)
    (h : ∀ t : Tile, t.in_bounds = true → x.get_tile t = y.get_tile t) :
    x.board = y.board := by
  have h4 : (2 : Nat) ^ 128 = 4 ^ 64 := by norm_num
  apply nat_digit_ext 64 _ _ (h4 ▸ hx) (h4 ▸ hy)
  intro i hi
  have ht := from_index_in_bounds i hi
  have hcell := h (Tile.from_index i) ht
  rw [get_tile_eq, get_tile_eq, tileShift_from_index i hi] at hcell
  have hp : (2 : Nat) ^ (2 * i) = 4 ^ i := by rw [pow_mul]; norm_num
  rw [hp] at hcell
  exact hcell

/-- Symbol writes never touch the turn flag. -/
theorem writeSyms_black : ∀ (ss : List Char) (b : OthelloBoard) (row col : Int),
    (writeSyms b row col ss).black_move = b.black_move := by
  intro ss
  induction ss with
  | nil => intro b row col; rfl
  | cons c ss ih =>
    intro b row col
    rw [show writeSyms b row col (c :: ss) =
      writeSyms (b.set_tile (Tile.new row col) (symVal c)) row (col + 1) ss from rfl]
    rw [ih]
    rfl

/-- Symbol writes keep the board inside 128 bits. -/
theorem writeSyms_lt : ∀ (ss : List Char) (b : OthelloBoard) (row col : Int),
    b.board < 2 ^ 128 → 0 ≤ row → row ≤ 7 → 0 ≤ col →
    col + ss.length ≤ 8 → (writeSyms b row col ss).board < 2 ^ 128 := by
  intro ss
  induction ss with
  | nil => intro b row col hb _ _ _ _; exact hb
  | cons c ss ih =>
    intro b row col hb hr0 hr7 hc0 hc8
    push_cast [List.length_cons] at hc8
    have hwt : (Tile.new row col).in_bounds = true :=
      tile_new_in_bounds row col hr0 hr7 hc0 (by omega)
    rw [show writeSyms b row col (c :: ss) =
      writeSyms (b.set_tile (Tile.new row col) (symVal c)) row (col + 1) ss from rfl]
    exact ih _ row (col + 1) (set_tile_lt b _ _ hb (symVal_lt c) hwt) hr0 hr7
      (by omega) (by push_cast; omega)

/-- Cells outside the written span of a row are untouched. -/
theorem writeSyms_get_ne : ∀ (ss : List Char) (b : OthelloBoard) (row col : Int)
    (t : Tile), b.board < 2 ^ 128 → 0 ≤ row → row ≤ 7 → 0 ≤ col →
    col + ss.length ≤ 8 → t.in_bounds = true →
    (t.row ≠ row ∨ t.col < col ∨ col + ss.length ≤ t.col) →
    (writeSyms b row col ss).get_tile t = b.get_tile t := by
  intro ss
  induction ss with
  | nil => intro b row col t hb _ _ _ _ _ _; rfl
  | cons c ss ih =>
    intro b row col t hb hr0 hr7 hc0 hc8 ht hd
    push_cast [List.length_cons] at hc8 hd
    have hwt : (Tile.new row col).in_bounds = true :=
      tile_new_in_bounds row col hr0 hr7 hc0 (by omega)
    rw [show writeSyms b row col (c :: ss) =
      writeSyms (b.set_tile (Tile.new row col) (symVal c)) row (col + 1) ss from rfl]
    rw [ih _ row (col + 1) t (set_tile_lt b _ _ hb (symVal_lt c) hwt) hr0 hr7
      (by omega) (by push_cast; omega) ht
      (by rcases hd with h | h | h
          · exact Or.inl h
          · exact Or.inr (Or.inl (by omega))
          · refine Or.inr (Or.inr ?_); push_cast; omega)]
    refine get_set_ne b (Tile.new row col) t (symVal c) hb (symVal_lt c) hwt ht ?_
    intro heq
    rw [heq] at hd
    unfold Tile.new at hd
    dsimp only at hd
    rcases hd with h | h | h
    · exact h rfl
    · omega
    · omega

/-- Reading back the `j`-th written cell of a row. -/
theorem writeSyms_get_at : ∀ (ss : List Char) (b : OthelloBoard) (row col : Int)
    (j : Nat) (hj : j < ss.length), b.board < 2 ^ 128 → 0 ≤ row → row ≤ 7 →
    0 ≤ col → col + ss.length ≤ 8 →
    (writeSyms b row col ss).get_tile (Tile.new row (col + j)) =
      symVal (ss.get ⟨j, hj⟩) := by
  intro ss
  induction ss with
  | nil => intro b row col j hj; exact absurd hj (by simp)
  | cons c ss ih =>
    intro b row col j hj hb hr0 hr7 hc0 hc8
    push_cast [List.length_cons] at hc8
    have hwt : (Tile.new row col).in_bounds = true :=
      tile_new_in_bounds row col hr0 hr7 hc0 (by omega)
    have hbs : (b.set_tile (Tile.new row col) (symVal c)).board < 2 ^ 128 :=
      set_tile_lt b _ _ hb (symVal_lt c) hwt
    rw [show writeSyms b row col (c :: ss) =
      writeSyms (b.set_tile (Tile.new row col) (symVal c)) row (col + 1) ss from rfl]
    cases j with
    | zero =>
      simp only [Nat.cast_zero, add_zero]
      rw [writeSyms_get_ne ss _ row (col + 1) (Tile.new row col) hbs hr0 hr7
        (by omega) (by push_cast; omega) hwt
        (Or.inr (Or.inl (show (Tile.new row col).col < col + 1 from by
          unfold Tile.new; dsimp only; omega)))]
      rw [get_set_same b _ _ hb (symVal_lt c) hwt]
      rfl
    | succ j =>
      have hj' : j < ss.length := by
        simp only [List.length_cons] at hj
        omega
      rw [show col + ((j + 1 : Nat) : Int) = (col + 1) + (j : Int) from by
        push_cast; ring]
      rw [ih _ row (col + 1) j hj' hbs hr0 hr7 (by omega) (by push_cast; omega)]
      rfl

/-- Row writes keep the board inside 128 bits. -/
theorem writeRows_lt : ∀ (rows : List (Int × List Char)) (b0 : OthelloBoard),
    b0.board < 2 ^ 128 →
    (∀ p ∈ rows, 0 ≤ p.1 ∧ p.1 ≤ 7 ∧ (p.2.length : Int) ≤ 8) →
    (writeRows b0 rows).board < 2 ^ 128 := by
  intro rows
  induction rows with
  | nil => intro b0 hb _; exact hb
  | cons p rows ih =>
    intro b0 hb hr
    obtain ⟨h1, h2, h3⟩ := hr p (List.mem_cons_self p rows)
    rw [show writeRows b0 (p :: rows) = writeRows (writeSyms b0 p.1 0 p.2) rows from rfl]
    exact ih _ (writeSyms_lt p.2 b0 p.1 0 hb h1 h2 le_rfl (by omega))
      (fun q hq => hr q (List.mem_cons_of_mem p hq))

/-- Rows not containing a cell's row index leave the cell unchanged. -/
theorem writeRows_notin : ∀ (rows : List (Int × List Char)) (b0 : OthelloBoard)
    (t : Tile), b0.board < 2 ^ 128 →
    (∀ p ∈ rows, 0 ≤ p.1 ∧ p.1 ≤ 7 ∧ (p.2.length : Int) ≤ 8) →
    t.in_bounds = true → (∀ p ∈ rows, t.row ≠ p.1) →
    (writeRows b0 rows).get_tile t = b0.get_tile t := by
  intro rows
  induction rows with
  | nil => intro b0 t hb _ _ _; rfl
  | cons p rows ih =>
    intro b0 t hb hr ht hne
    obtain ⟨h1, h2, h3⟩ := hr p (List.mem_cons_self p rows)
    rw [show writeRows b0 (p :: rows) = writeRows (writeSyms b0 p.1 0 p.2) rows from rfl]
    rw [ih _ t (writeSyms_lt p.2 b0 p.1 0 hb h1 h2 le_rfl (by omega))
      (fun q hq => hr q (List.mem_cons_of_mem p hq)) ht
      (fun q hq => hne q (List.mem_cons_of_mem p hq))]
    exact writeSyms_get_ne p.2 b0 p.1 0 t hb h1 h2 le_rfl (by omega) ht
      (Or.inl (hne p (List.mem_cons_self p rows)))

/-- A legal move preserves well-formedness of the packed board. -/
theorem make_move_valid (b : OthelloBoard) (mov : Tile) (hv : validBoard b)
    (hm : mov ∈ b.find_current_moves_as_vec) : validBoard (b.make_move mov) := by
  obtain ⟨hmi, hme⟩ := mem_find_potential b _ mov hm
  have hcur4 : (if b.black_move then BLACK else WHITE) < 4 := by
    cases b.black_move <;> decide
  have hb1black : (OthelloBoard.set_tile { b with black_move := !b.black_move } mov
      (if b.black_move then BLACK else WHITE)).black_move = !b.black_move := rfl
  have hb1bd : (OthelloBoard.set_tile { b with black_move := !b.black_move } mov
      (if b.black_move then BLACK else WHITE)).board < 2 ^ 128 :=
    set_tile_lt _ mov _ hv.1 hcur4 hmi
  have hb1cells : ∀ t : Tile, t.in_bounds = true →
      (OthelloBoard.set_tile { b with black_move := !b.black_move } mov
        (if b.black_move then BLACK else WHITE)).get_tile t =
      if t = mov then (if b.black_move then BLACK else WHITE)
      else if flippedOn [] b mov t = true then (if b.black_move then BLACK else WHITE)
      else b.get_tile t := by
    intro t ht
    by_cases hmov : t = mov
    · rw [if_pos hmov, hmov]
      exact get_set_same _ mov _ hv.1 hcur4 hmi
    · rw [if_neg hmov]
      rw [show flippedOn [] b mov t = false from rfl]
      simp only [Bool.false_eq_true, if_false]
      exact get_set_ne _ mov t _ hv.1 hcur4 hmi ht hmov
  obtain ⟨hfb, hfbd, hfcells⟩ := make_move_fold b mov hv hmi DIRECTIONS []
    (List.nil_append DIRECTIONS) _ hb1black hb1bd hb1cells
  rw [← make_move_eq] at hfbd hfcells
  refine ⟨hfbd, ?_⟩
  intro i hi
  have ht := from_index_in_bounds i (List.mem_range.1 hi)
  rw [hfcells (Tile.from_index i) ht]
  split
  · cases b.black_move <;> decide
  · split
    · cases b.black_move <;> decide
    · exact hv.2 i hi

/-- Every position reachable by legal play is well-formed. -/
theorem reachable_valid (b : OthelloBoard) (h : Reachable b) : validBoard b := by
  induction h with
  | init => decide
  | step b mov hr hm ih => exact make_move_valid b mov ih hm

/-- Reading a cell after writing a full row of symbols into it. -/
theorem writeSyms_get (ss : List Char) (b : OthelloBoard) (r : Int) (t : Tile)
    (hb : b.board < 2 ^ 128) (hr0 : 0 ≤ r) (hr7 : r ≤ 7)
    (hlen : (ss.length : Int) ≤ 8) (ht : t.in_bounds = true) :
    (writeSyms b r 0 ss).get_tile t = cellOf [(r, ss)] (b.get_tile t) t := by
  obtain ⟨a, c⟩ := t
  unfold Tile.in_bounds at ht
  simp only [Bool.and_eq_true, decide_eq_true_eq] at ht
  obtain ⟨⟨⟨ha0, hc0⟩, ha8⟩, hc8⟩ := ht
  unfold cellOf
  rw [List.foldl_cons, List.foldl_nil]
  dsimp only
  by_cases hr : a = r
  · rw [if_pos hr]
    by_cases hlt : c.toNat < ss.length
    · rw [List.get?_eq_get hlt]
      have hteq : (⟨a, c⟩ : Tile) = Tile.new r (0 + (c.toNat : Int)) := by
        unfold Tile.new
        simp only [Tile.mk.injEq]
        exact ⟨hr, by omega⟩
      rw [hteq, writeSyms_get_at ss b r 0 c.toNat hlt hb hr0 hr7 le_rfl (by omega)]
    · rw [List.get?_eq_none.2 (by omega)]
      exact writeSyms_get_ne ss b r 0 ⟨a, c⟩ hb hr0 hr7 le_rfl (by omega)
        (tile_new_in_bounds a c ha0 (by omega) hc0 (by omega))
        (Or.inr (Or.inr (by dsimp only; omega)))
  · rw [if_neg hr]
    exact writeSyms_get_ne ss b r 0 ⟨a, c⟩ hb hr0 hr7 le_rfl (by omega)
      (tile_new_in_bounds a c ha0 (by omega) hc0 (by omega))
      (Or.inl (by dsimp only; exact hr))

/-- Reading a cell after a sequence of row writes. -/
theorem writeRows_get_cell : ∀ (rows : List (Int × List Char)) (b0 : OthelloBoard)
    (t : Tile), b0.board < 2 ^ 128 →
    (∀ p ∈ rows, 0 ≤ p.1 ∧ p.1 ≤ 7 ∧ (p.2.length : Int) ≤ 8) →
    t.in_bounds = true →
    (writeRows b0 rows).get_tile t = cellOf rows (b0.get_tile t) t := by
  intro rows
  induction rows with
  | nil => intro b0 t hb _ _; rfl
  | cons p rows ih =>
    intro b0 t hb hrr ht
    obtain ⟨h1, h2, h3⟩ := hrr p (List.mem_cons_self p rows)
    rw [show writeRows b0 (p :: rows) = writeRows (writeSyms b0 p.1 0 p.2) rows from rfl]
    rw [ih _ t (writeSyms_lt p.2 b0 p.1 0 hb h1 h2 le_rfl (by omega))
      (fun q hq => hrr q (List.mem_cons_of_mem p hq)) ht]
    rw [writeSyms_get p.2 b0 p.1 t hb h1 h2 h3 ht]
    rfl

/-- Every symbol of an encoded row is a recognized cell symbol. -/
theorem valid_row_syms (b : OthelloBoard) (ts : List Tile) (tl : Tile) :
    ∀ c ∈ ts.map b.get_symbol ++ [b.get_symbol tl], validSym c := by
  intro u hu
  rcases List.mem_append.1 hu with hm | hm
  · obtain ⟨t, -, rfl⟩ := List.mem_map.1 hm
    exact get_symbol_valid b t
  · rw [List.mem_singleton.1 hm]
    exact get_symbol_valid b tl

/-- `set_turn` on the black marker. -/
theorem set_turn_B (bb : OthelloBoard) :
    OthelloBoard.set_turn bb 'B' = Except.ok { bb with black_move := true } := rfl

/-- `set_turn` on the white marker. -/
theorem set_turn_W (bb : OthelloBoard) :
    OthelloBoard.set_turn bb 'W' = Except.ok { bb with black_move := false } := rfl

/-- Boards are determined by their two fields. -/
theorem othello_ext (x y : OthelloBoard) (h1 : x.board = y.board)
    (h2 : x.black_move = y.black_move) : x = y := by
  cases x
  cases y
  dsimp only at h1 h2
  rw [h1, h2]

/-- Once the parser's row counter passes 7, the next character is read
as the turn marker. -/
theorem parse_turn (bb : OthelloBoard) (row col count : Int) (c : Char)
    (rest : List Char) (hrow : row > 7) :
    fromNotationAux bb row col count (c :: rest) = OthelloBoard.set_turn bb c := by
  simp only [fromNotationAux]
  rw [if_pos hrow]

/-- `to_notation` emits exactly the run-length encodings of the eight
rows, separated by slashes, followed by the turn marker. -/
theorem to_notation_rows (b : OthelloBoard) :
    OthelloBoard.to_notation b =
      encRun (b.get_symbol (Tile.new 0 0)) 1
        ([Tile.new 0 1, Tile.new 0 2, Tile.new 0 3, Tile.new 0 4, Tile.new 0 5, Tile.new 0 6].map b.get_symbol ++ [b.get_symbol (Tile.new 0 7)]) ++ '/' :: (encRun (b.get_symbol (Tile.new 1 0)) 1
        ([Tile.new 1 1, Tile.new 1 2, Tile.new 1 3, Tile.new 1 4, Tile.new 1 5, Tile.new 1 6].map b.get_symbol ++ [b.get_symbol (Tile.new 1 7)]) ++ '/' :: (encRun (b.get_symbol (Tile.new 2 0)) 1
        ([Tile.new 2 1, Tile.new 2 2, Tile.new 2 3, Tile.new 2 4, Tile.new 2 5, Tile.new 2 6].map b.get_symbol ++ [b.get_symbol (Tile.new 2 7)]) ++ '/' :: (encRun (b.get_symbol (Tile.new 3 0)) 1
        ([Tile.new 3 1, Tile.new 3 2, Tile.new 3 3, Tile.new 3 4, Tile.new 3 5, Tile.new 3 6].map b.get_symbol ++ [b.get_symbol (Tile.new 3 7)]) ++ '/' :: (encRun (b.get_symbol (Tile.new 4 0)) 1
        ([Tile.new 4 1, Tile.new 4 2, Tile.new 4 3, Tile.new 4 4, Tile.new 4 5, Tile.new 4 6].map b.get_symbol ++ [b.get_symbol (Tile.new 4 7)]) ++ '/' :: (encRun (b.get_symbol (Tile.new 5 0)) 1
        ([Tile.new 5 1, Tile.new 5 2, Tile.new 5 3, Tile.new 5 4, Tile.new 5 5, Tile.new 5 6].map b.get_symbol ++ [b.get_symbol (Tile.new 5 7)]) ++ '/' :: (encRun (b.get_symbol (Tile.new 6 0)) 1
        ([Tile.new 6 1, Tile.new 6 2, Tile.new 6 3, Tile.new 6 4, Tile.new 6 5, Tile.new 6 6].map b.get_symbol ++ [b.get_symbol (Tile.new 6 7)]) ++ '/' :: (encRun (b.get_symbol (Tile.new 7 0)) 1
        ([Tile.new 7 1, Tile.new 7 2, Tile.new 7 3, Tile.new 7 4, Tile.new 7 5, Tile.new 7 6].map b.get_symbol ++ [b.get_symbol (Tile.new 7 7)]) ++ '/' :: [if b.black_move then 'B' else 'W']))))))) := by
  have hT : TILES =
      (Tile.new 0 0 :: ([Tile.new 0 1, Tile.new 0 2, Tile.new 0 3, Tile.new 0 4, Tile.new 0 5, Tile.new 0 6] ++ [Tile.new 0 7])) ++
      ((Tile.new 1 0 :: ([Tile.new 1 1, Tile.new 1 2, Tile.new 1 3, Tile.new 1 4, Tile.new 1 5, Tile.new 1 6] ++ [Tile.new 1 7])) ++
      ((Tile.new 2 0 :: ([Tile.new 2 1, Tile.new 2 2, Tile.new 2 3, Tile.new 2 4, Tile.new 2 5, Tile.new 2 6] ++ [Tile.new 2 7])) ++
      ((Tile.new 3 0 :: ([Tile.new 3 1, Tile.new 3 2, Tile.new 3 3, Tile.new 3 4, Tile.new 3 5, Tile.new 3 6] ++ [Tile.new 3 7])) ++
      ((Tile.new 4 0 :: ([Tile.new 4 1, Tile.new 4 2, Tile.new 4 3, Tile.new 4 4, Tile.new 4 5, Tile.new 4 6] ++ [Tile.new 4 7])) ++
      ((Tile.new 5 0 :: ([Tile.new 5 1, Tile.new 5 2, Tile.new 5 3, Tile.new 5 4, Tile.new 5 5, Tile.new 5 6] ++ [Tile.new 5 7])) ++
      ((Tile.new 6 0 :: ([Tile.new 6 1, Tile.new 6 2, Tile.new 6 3, Tile.new 6 4, Tile.new 6 5, Tile.new 6 6] ++ [Tile.new 6 7])) ++
      ((Tile.new 7 0 :: ([Tile.new 7 1, Tile.new 7 2, Tile.new 7 3, Tile.new 7 4, Tile.new 7 5, Tile.new 7 6] ++ [Tile.new 7 7])) ++ ([] : List Tile)))))))) := by decide
  show (TILES.foldl (encStep b) ([], 0, b.get_symbol (Tile.from_index 0))).1 ++
      [if b.black_move then 'B' else 'W'] = _
  rw [hT]
  rw [List.foldl_append, List.foldl_cons, row_enter b _ _ (Tile.new 0 0) (by decide),
    row_fold b [Tile.new 0 1, Tile.new 0 2, Tile.new 0 3, Tile.new 0 4, Tile.new 0 5, Tile.new 0 6] (Tile.new 0 7) (by decide) (by decide)]
  rw [List.foldl_append, List.foldl_cons, row_enter b _ _ (Tile.new 1 0) (by decide),
    row_fold b [Tile.new 1 1, Tile.new 1 2, Tile.new 1 3, Tile.new 1 4, Tile.new 1 5, Tile.new 1 6] (Tile.new 1 7) (by decide) (by decide)]
  rw [List.foldl_append, List.foldl_cons, row_enter b _ _ (Tile.new 2 0) (by decide),
    row_fold b [Tile.new 2 1, Tile.new 2 2, Tile.new 2 3, Tile.new 2 4, Tile.new 2 5, Tile.new 2 6] (Tile.new 2 7) (by decide) (by decide)]
  rw [List.foldl_append, List.foldl_cons, row_enter b _ _ (Tile.new 3 0) (by decide),
    row_fold b [Tile.new 3 1, Tile.new 3 2, Tile.new 3 3, Tile.new 3 4, Tile.new 3 5, Tile.new 3 6] (Tile.new 3 7) (by decide) (by decide)]
  rw [List.foldl_append, List.foldl_cons, row_enter b _ _ (Tile.new 4 0) (by decide),
    row_fold b [Tile.new 4 1, Tile.new 4 2, Tile.new 4 3, Tile.new 4 4, Tile.new 4 5, Tile.new 4 6] (Tile.new 4 7) (by decide) (by decide)]
  rw [List.foldl_append, List.foldl_cons, row_enter b _ _ (Tile.new 5 0) (by decide),
    row_fold b [Tile.new 5 1, Tile.new 5 2, Tile.new 5 3, Tile.new 5 4, Tile.new 5 5, Tile.new 5 6] (Tile.new 5 7) (by decide) (by decide)]
  rw [List.foldl_append, List.foldl_cons, row_enter b _ _ (Tile.new 6 0) (by decide),
    row_fold b [Tile.new 6 1, Tile.new 6 2, Tile.new 6 3, Tile.new 6 4, Tile.new 6 5, Tile.new 6 6] (Tile.new 6 7) (by decide) (by decide)]
  rw [List.foldl_append, List.foldl_cons, row_enter b _ _ (Tile.new 7 0) (by decide),
    row_fold b [Tile.new 7 1, Tile.new 7 2, Tile.new 7 3, Tile.new 7 4, Tile.new 7 5, Tile.new 7 6] (Tile.new 7 7) (by decide) (by decide),
    List.foldl_nil]
  simp only [List.nil_append, List.append_assoc, List.singleton_append,
    List.cons_append]

/-- The decoded row lists: row indices within range, eight symbols each. -/
theorem notationRows_bounds (b : OthelloBoard) :
    ∀ p ∈ notationRows b, 0 ≤ p.1 ∧ p.1 ≤ 7 ∧ (p.2.length : Int) ≤ 8 := by
  intro p hp
  unfold notationRows at hp
  simp only [List.mem_cons, List.not_mem_nil, or_false] at hp
  rcases hp with rfl | rfl | rfl | rfl | rfl | rfl | rfl | rfl <;>
    exact ⟨by norm_num, by norm_num,
      by norm_num [List.length_append, List.length_map, List.length_replicate]⟩

/-- Parsing the encoder's output writes every cell of the original
board back. -/
theorem decoded_cells (b : OthelloBoard) (hv : validBoard b) (t : Tile)
    (ht : t.in_bounds = true) :
    (writeRows OthelloBoard.new (notationRows b)).get_tile t = b.get_tile t := by
  rw [writeRows_get_cell (notationRows b) OthelloBoard.new t (by decide)
    (notationRows_bounds b) ht]
  obtain ⟨a, c⟩ := t
  unfold Tile.in_bounds at ht
  simp only [Bool.and_eq_true, decide_eq_true_eq] at ht
  obtain ⟨⟨⟨ha0, hc0⟩, ha8⟩, hc8⟩ := ht
  interval_cases a <;> interval_cases c <;>
    exact symVal_get_symbol b _ (validBoard_get b hv _ (by decide))

/-- C6: the notation round-trip.  For every position reachable by legal
play from the initial position, decoding the encoder's output returns
exactly the original position, cells and side to move alike. -/
theorem claim_C6 (b : OthelloBoard) (h : Reachable b) :
    OthelloBoard.from_notation (OthelloBoard.to_notation b) = Except.ok b := by
  have hv : validBoard b := reachable_valid b h
  have hboard : (writeRows OthelloBoard.new (notationRows b)).board = b.board :=
    board_ext _ b
      (writeRows_lt (notationRows b) OthelloBoard.new (by decide)
        (notationRows_bounds b))
      hv.1 (decoded_cells b hv)
  rw [to_notation_rows b]
  unfold OthelloBoard.from_notation
  rw [parse_encRun _ _ 1 OthelloBoard.new 0 _ 0 (by norm_num) le_rfl le_rfl
    (by norm_num [List.length_append, List.length_map]) (get_symbol_valid b _)
    (valid_row_syms b _ _)]
  rw [parse_slash _ _ _ _ _ (by norm_num)]
  rw [parse_encRun _ _ 1 _ 0 _ _ (by norm_num) le_rfl le_rfl
    (by norm_num [List.length_append, List.length_map]) (get_symbol_valid b _)
    (valid_row_syms b _ _)]
  rw [parse_slash _ _ _ _ _ (by norm_num)]
  rw [parse_encRun _ _ 1 _ 0 _ _ (by norm_num) le_rfl le_rfl
    (by norm_num [List.length_append, List.length_map]) (get_symbol_valid b _)
    (valid_row_syms b _ _)]
  rw [parse_slash _ _ _ _ _ (by norm_num)]
  rw [parse_encRun _ _ 1 _ 0 _ _ (by norm_num) le_rfl le_rfl
    (by norm_num [List.length_append, List.length_map]) (get_symbol_valid b _)
    (valid_row_syms b _ _)]
  rw [parse_slash _ _ _ _ _ (by norm_num)]
  rw [parse_encRun _ _ 1 _ 0 _ _ (by norm_num) le_rfl le_rfl
    (by norm_num [List.length_append, List.length_map]) (get_symbol_valid b _)
    (valid_row_syms b _ _)]
  rw [parse_slash _ _ _ _ _ (by norm_num)]
  rw [parse_encRun _ _ 1 _ 0 _ _ (by norm_num) le_rfl le_rfl
    (by norm_num [List.length_append, List.length_map]) (get_symbol_valid b _)
    (valid_row_syms b _ _)]
  rw [parse_slash _ _ _ _ _ (by norm_num)]
  rw [parse_encRun _ _ 1 _ 0 _ _ (by norm_num) le_rfl le_rfl
    (by norm_num [List.length_append, List.length_map]) (get_symbol_valid b _)
    (valid_row_syms b _ _)]
  rw [parse_slash _ _ _ _ _ (by norm_num)]
  rw [parse_encRun _ _ 1 _ 0 _ _ (by norm_num) le_rfl le_rfl
    (by norm_num [List.length_append, List.length_map]) (get_symbol_valid b _)
    (valid_row_syms b _ _)]
  rw [parse_slash _ _ _ _ _ (by norm_num)]
  rw [parse_turn _ _ _ _ _ _ (by norm_num)]
  cases hbm : b.black_move
  · rw [if_neg (by decide : ¬(false = true)), set_turn_W]
    exact congrArg Except.ok (othello_ext _ _ hboard hbm.symm)
  · rw [if_pos (show true = true from rfl), set_turn_B]
    exact congrArg Except.ok (othello_ext _ _ hboard hbm.symm)

/-- C6 witness: the round-trip at the initial position. -/
theorem claim_C6_witness :
    OthelloBoard.from_notation (OthelloBoard.to_notation OthelloBoard.new) =
      Except.ok OthelloBoard.new :=
  claim_C6 OthelloBoard.new Reachable.init

set_option maxRecDepth 100000 in
/-- C1: cache soundness fails.  `evaluate` stores the window-clamped
`alpha`/`beta` result of every interior node, keyed only by the cells
(and consulted again whenever the same cells recur at the same or
smaller remaining depth), so a transposition reached under a different
`(alpha, beta)` window is answered with a bound instead of its true
value.  On the pictured six-disc position (white on h1, b2, a3, e4;
black on c2, c3; black to move) with `max_search_depth = 5` and the
injective cell hasher `table i c = c <<< 2 i` (under which two boards
collide exactly when all 64 cells agree, as for any transposition),
the engine picks a4 with score -225/2 with the cache enabled but a1
with score -70 with every probe missing: the cache changes both the
chosen move and the score at a fixed depth. -/
theorem claim_C1_bug :
    (find_best_move true ⟨fun i c => c <<< (2 * i)⟩ ⟨5⟩ ⟨72057735774224384, true⟩
      TranspositionTable.new).1 ≠
    (find_best_move false ⟨fun i c => c <<< (2 * i)⟩ ⟨5⟩ ⟨72057735774224384, true⟩
      TranspositionTable.new).1 := by decide

end Othello
